import Mathlib

/-!
Verification development for the BlenderGIS overpy core
(`operators/lib/osm/overpy/__init__.py`): a shallow embedding of the
Overpass transport client, the wire codec and the result graph, with
theorems about the behaviours the module's specification describes.

Python `bytes`/`str` values are modelled as Lean `String`/`List Char`
(the payloads involved are ASCII), `decimal.Decimal` finite numerals as
an integer coefficient with a power-of-ten exponent, and Python floats
arising from exact decimal text as exact rationals.
-/

/- ### Python helpers: whitespace, digits -/

/-- ASCII whitespace as recognised by `bytes.strip` / regex `\s` in Python. -/
def pyWs (c : Char) : Bool :=
  c = ' ' || c = '\t' || c = '\n' || c = '\r' || c = '\x0b' || c = '\x0c'

/-- Numeric value of a digit list, most significant first (`int("...")` core). -/
def digitsVal (l : List Char) : Nat :=
  l.foldl (fun a c => 10 * a + (c.toNat - 48)) 0

/-- `str.strip()` / `bytes.strip()` on ASCII whitespace. -/
def pyStrip (l : List Char) : List Char :=
  ((l.dropWhile pyWs).reverse.dropWhile pyWs).reverse

/-- ASCII decimal digit. -/
def isDig (c : Char) : Bool := 48 ≤ c.toNat && c.toNat ≤ 57

/-- Optional leading sign, as accepted by `int()` and `Decimal()`. -/
def parseSign (l : List Char) : Int × List Char :=
  match l with
  | [] => (1, [])
  | c :: r => if c = '+' then (1, r) else if c = '-' then (-1, r) else (1, c :: r)

/- ### decimal.Decimal (finite numerals)

`Decimal` text input: optional sign, digits with an optional fractional
part, optional decimal exponent.  The special forms (`NaN`, `Infinity`)
and digit-group underscores are outside the numeric fragment this
development models; OSM coordinate text never uses them. -/

/-- A finite `decimal.Decimal`: value `num * 10 ^ exp`, exactly as the
coefficient/exponent pair Python stores. -/
structure Dec where
  num : Int
  exp : Int
deriving Repr, DecidableEq

/-- Exact rational value of a `Decimal`. -/
def Dec.toRat (d : Dec) : ℚ := (d.num : ℚ) * (10 : ℚ) ^ d.exp

/-- Exponent suffix of a `Decimal` literal (`e`/`E`, optional sign, digits). -/
def parseExp : List Char → Option (Int × List Char)
  | [] => some (0, [])
  | c :: r =>
    if c = 'e' ∨ c = 'E' then
      let (es, r1) := parseSign r
      let ed := r1.takeWhile isDig
      let r2 := r1.dropWhile isDig
      if ed.isEmpty then none else some (es * (digitsVal ed : Int), r2)
    else some (0, c :: r)

/-- Core of `Decimal(text)` after whitespace stripping. -/
def parseDecCore (l : List Char) : Option Dec :=
  let (sgn, l1) := parseSign l
  let ip := l1.takeWhile isDig
  let l2 := l1.dropWhile isDig
  let fp :=
    match l2 with
    | '.' :: r => r.takeWhile isDig
    | _ => []
  let l3 :=
    match l2 with
    | '.' :: r => r.dropWhile isDig
    | _ => l2
  if ip.isEmpty ∧ fp.isEmpty then none
  else
    match parseExp l3 with
    | none => none
    | some (e, l4) =>
      if l4.isEmpty then some ⟨sgn * (digitsVal (ip ++ fp) : Int), e - fp.length⟩
      else none

/-- `decimal.Decimal(text)`: `some` on a well-formed finite numeral, `none`
where the constructor raises `InvalidOperation`. -/
def parseDecimal (s : String) : Option Dec :=
  parseDecCore (pyStrip s.toList)

/-- Python `int(text)` (decimal form). -/
def parseInt (s : String) : Option Int :=
  let l := pyStrip s.toList
  let (sgn, l1) := parseSign l
  if l1.isEmpty then none
  else if l1.all isDig then some (sgn * (digitsVal l1 : Int))
  else none

/- ### Reference denotation of decimal text (spec side)

The specification demands that coordinate text be decoded exactly; this
digit-by-digit denotation is the independent yardstick the parser is
measured against. -/

/-- Rational value of an integer digit string, defined digit by digit. -/
def refInt : List Char → ℚ :=
  fun l => l.foldl (fun a c => 10 * a + ((c.toNat - 48 : Nat) : ℚ)) 0

/-- Rational value of a fractional digit string, defined digit by digit. -/
def refFrac : List Char → ℚ
  | [] => 0
  | c :: r => (((c.toNat - 48 : Nat) : ℚ) + refFrac r) / 10

theorem digitsVal_cons (c : Char) (r : List Char) :
    digitsVal (c :: r) = (c.toNat - 48) * 10 ^ r.length + digitsVal r := by
  have h : ∀ (l : List Char) (a : Nat),
      l.foldl (fun a c => 10 * a + (c.toNat - 48)) a
        = a * 10 ^ l.length + l.foldl (fun a c => 10 * a + (c.toNat - 48)) 0 := by
    intro l
    induction l with
    | nil => intro a; simp
    | cons d t ih =>
      intro a
      simp only [List.foldl_cons, List.length_cons]
      rw [ih (10 * a + (d.toNat - 48)), ih (10 * 0 + (d.toNat - 48))]
      ring
  simp only [digitsVal, List.foldl_cons]
  rw [h r (10 * 0 + (c.toNat - 48))]
  ring

theorem digitsVal_append (xs ys : List Char) :
    digitsVal (xs ++ ys) = digitsVal xs * 10 ^ ys.length + digitsVal ys := by
  induction xs with
  | nil => simp [digitsVal]
  | cons c t ih =>
    rw [List.cons_append, digitsVal_cons, digitsVal_cons, ih,
      List.length_append]
    ring_nf

theorem refInt_eq_digitsVal (l : List Char) : refInt l = (digitsVal l : ℚ) := by
  induction l with
  | nil => simp [refInt, digitsVal]
  | cons c r ih =>
    have : refInt (c :: r)
        = ((c.toNat - 48 : Nat) : ℚ) * 10 ^ r.length + refInt r := by
      have h : ∀ (t : List Char) (a : ℚ),
          t.foldl (fun x d => 10 * x + ((d.toNat - 48 : Nat) : ℚ)) a
            = a * 10 ^ t.length
              + t.foldl (fun x d => 10 * x + ((d.toNat - 48 : Nat) : ℚ)) 0 := by
        intro t
        induction t with
        | nil => intro a; simp
        | cons d u ihu =>
          intro a
          simp only [List.foldl_cons, List.length_cons]
          rw [ihu (10 * a + _), ihu (10 * 0 + _)]
          ring
      simp only [refInt, List.foldl_cons]
      rw [h r (10 * 0 + _)]
      ring
    rw [this, ih, digitsVal_cons]
    push_cast
    ring

theorem refFrac_eq (l : List Char) :
    refFrac l = (digitsVal l : ℚ) / 10 ^ l.length := by
  induction l with
  | nil => simp [refFrac, digitsVal]
  | cons c r ih =>
    rw [refFrac, ih, digitsVal_cons, List.length_cons]
    have h10 : (10 : ℚ) ^ r.length ≠ 0 := by positivity
    have hstep : (((c.toNat - 48 : Nat) : ℚ)) + (digitsVal r : ℚ) / 10 ^ r.length
        = (((c.toNat - 48 : Nat) : ℚ) * 10 ^ r.length + (digitsVal r : ℚ))
          / 10 ^ r.length := by
      field_simp
    rw [hstep, div_div, ← pow_succ]
    push_cast
    ring_nf

/- ### Span and strip lemmas used by the exactness proof -/

theorem isDig_toNat {c : Char} (h : isDig c = true) :
    48 ≤ c.toNat ∧ c.toNat ≤ 57 := by
  simpa [isDig] using h

theorem isDig_ne {c b : Char} (h : isDig c = true)
    (hb : ¬(48 ≤ b.toNat ∧ b.toNat ≤ 57)) : c ≠ b := by
  intro e
  exact hb (e ▸ isDig_toNat h)

theorem isDig_pyWs {c : Char} (h : isDig c = true) : pyWs c = false := by
  have h1 : c ≠ ' ' := isDig_ne h (by decide)
  have h2 : c ≠ '\t' := isDig_ne h (by decide)
  have h3 : c ≠ '\n' := isDig_ne h (by decide)
  have h4 : c ≠ '\r' := isDig_ne h (by decide)
  have h5 : c ≠ '\x0b' := isDig_ne h (by decide)
  have h6 : c ≠ '\x0c' := isDig_ne h (by decide)
  simp [pyWs, h1, h2, h3, h4, h5, h6]

theorem dropWhile_of_neg {p : Char → Bool} {l : List Char}
    (h : ∀ c ∈ l, p c = false) : l.dropWhile p = l := by
  cases l with
  | nil => rfl
  | cons a t => simp [List.dropWhile_cons, h a (by simp)]

theorem pyStrip_of_noWs {l : List Char} (h : ∀ c ∈ l, pyWs c = false) :
    pyStrip l = l := by
  unfold pyStrip
  rw [dropWhile_of_neg h, dropWhile_of_neg (by
    intro c hc
    exact h c (List.mem_reverse.mp hc)), List.reverse_reverse]

theorem takeWhile_all {p : Char → Bool} {l : List Char}
    (h : ∀ c ∈ l, p c = true) : l.takeWhile p = l ∧ l.dropWhile p = [] := by
  induction l with
  | nil => exact ⟨rfl, rfl⟩
  | cons a t ih =>
    have ha := h a (by simp)
    have iht := ih (fun c hc => h c (by simp [hc]))
    simp [List.takeWhile_cons, List.dropWhile_cons, ha, iht.1, iht.2]

theorem span_append {p : Char → Bool} {l : List Char}
    (h : ∀ c ∈ l, p c = true) {c : Char} (hc : p c = false) (t : List Char) :
    (l ++ c :: t).takeWhile p = l ∧ (l ++ c :: t).dropWhile p = c :: t := by
  induction l with
  | nil => simp [List.takeWhile_cons, List.dropWhile_cons, hc]
  | cons a r ih =>
    have ha := h a (by simp)
    have ihr := ih (fun x hx => h x (by simp [hx]))
    simp [List.takeWhile_cons, List.dropWhile_cons, ha, ihr.1, ihr.2]

/- ### Exactness of the Decimal parse (core of the precision claim) -/

theorem parseDecimal_exact (d1 d2 : List Char) (h1ne : d1 ≠ [])
    (h1 : ∀ c ∈ d1, isDig c = true) (h2 : ∀ c ∈ d2, isDig c = true) :
    parseDecimal (String.mk (d1 ++ '.' :: d2))
      = some ⟨(digitsVal (d1 ++ d2) : Int), -(d2.length : Int)⟩
    ∧ (Dec.toRat ⟨(digitsVal (d1 ++ d2) : Int), -(d2.length : Int)⟩)
      = refInt d1 + refFrac d2 := by
  have hallws : ∀ c ∈ d1 ++ '.' :: d2, pyWs c = false := by
    intro c hc
    rcases List.mem_append.mp hc with hcl | hcr
    · exact isDig_pyWs (h1 c hcl)
    · rcases List.mem_cons.mp hcr with he | hcd
      · subst he; decide
      · exact isDig_pyWs (h2 c hcd)
  constructor
  · show parseDecCore (pyStrip (String.mk (d1 ++ '.' :: d2)).toList) = _
    have htl : (String.mk (d1 ++ '.' :: d2)).toList = d1 ++ '.' :: d2 := rfl
    rw [htl, pyStrip_of_noWs hallws]
    obtain ⟨a, t, rfl⟩ : ∃ a t, d1 = a :: t := by
      cases d1 with
      | nil => exact absurd rfl h1ne
      | cons a t => exact ⟨a, t, rfl⟩
    have hdot : isDig '.' = false := by decide
    have hspan := span_append (l := a :: t) h1 hdot d2
    have hfp := takeWhile_all h2
    have hsgn : parseSign ((a :: t) ++ '.' :: d2) = (1, (a :: t) ++ '.' :: d2) := by
      have hna : a ≠ '+' := isDig_ne (h1 a (by simp)) (by decide)
      have hnb : a ≠ '-' := isDig_ne (h1 a (by simp)) (by decide)
      simp [parseSign, hna, hnb]
    unfold parseDecCore
    rw [hsgn]
    simp only [hspan.1, hspan.2, hfp.1, hfp.2]
    simp [parseExp]
  · unfold Dec.toRat
    rw [digitsVal_append, refInt_eq_digitsVal, refFrac_eq]
    have h10 : (10 : ℚ) ^ d2.length ≠ 0 := by positivity
    rw [zpow_neg, zpow_natCast]
    push_cast
    field_simp

/- ### Ordered dictionaries as association lists

`OrderedDict`/`dict` semantics: unique keys, insertion order preserved,
assignment of an existing key keeps its position and replaces the value,
`setdefault` keeps the first value. -/

/-- Dictionary lookup (`d[k]` / `d.get(k)`). -/
def odGet {κ α : Type} [DecidableEq κ] (l : List (κ × α)) (k : κ) : Option α :=
  match l with
  | [] => none
  | p :: r => if p.1 = k then some p.2 else odGet r k

/-- Key membership (`k in d`). -/
def odHas {κ α : Type} [DecidableEq κ] (l : List (κ × α)) (k : κ) : Bool :=
  (odGet l k).isSome

/-- Dictionary assignment (`d[k] = v`). -/
def odSet {κ α : Type} [DecidableEq κ] (l : List (κ × α)) (k : κ) (v : α) :
    List (κ × α) :=
  match l with
  | [] => [(k, v)]
  | p :: r => if p.1 = k then (k, v) :: r else p :: odSet r k v

/-- `d.setdefault(k, v)`. -/
def odSetdefault {κ α : Type} [DecidableEq κ] (l : List (κ × α)) (k : κ) (v : α) :
    List (κ × α) :=
  if odHas l k then l else l ++ [(k, v)]

/- ### Element data model (closed variant set, per the wire protocol) -/

/-- Element kind tag (`node` / `way` / `relation`). -/
inductive Kind where
  | node
  | way
  | relation
deriving Repr, DecidableEq

/-- `_type_value` of a kind. -/
def Kind.typeValue : Kind → String
  | .node => "node"
  | .way => "way"
  | .relation => "relation"

/-- A relation member (`RelationNode` / `RelationWay` / `RelationRelation`). -/
structure Member where
  kind : Kind
  ref : Option Int
  role : Option String
deriving Repr, DecidableEq

/-- `overpy.Node`: tag values may be `None` (a `tag` child without `v`). -/
structure Node where
  id : Option Int
  lat : Option Dec
  lon : Option Dec
  tags : List (String × Option String)
  attributes : List (String × String)
deriving Repr, DecidableEq

/-- `overpy.Way`. -/
structure Way where
  id : Option Int
  node_ids : List Int
  tags : List (String × Option String)
  attributes : List (String × String)
deriving Repr, DecidableEq

/-- `overpy.Relation`. -/
structure Relation where
  id : Option Int
  members : List Member
  tags : List (String × Option String)
  attributes : List (String × String)
deriving Repr, DecidableEq

/-- The closed union of element variants. -/
inductive Elem where
  | node (n : Node)
  | way (w : Way)
  | rel (r : Relation)
deriving Repr, DecidableEq

/-- The `id` attribute of an element. -/
def Elem.eid : Elem → Option Int
  | .node n => n.id
  | .way w => w.id
  | .rel r => r.id

/-- `is_valid_type(element, Element)`: in the closed model the class check
holds by construction, so only the non-`None` id check remains. -/
def is_valid_type (e : Elem) : Bool := e.eid.isSome

/- ### The Result graph -/

/-- `overpy.Result`: three identity-keyed, insertion-ordered collections,
plus the `_bounds` dictionary (empty = not yet computed). -/
structure Result where
  nodes : List (Int × Node)
  ways : List (Int × Way)
  rels : List (Int × Relation)
  bnds : List (String × ℚ)
deriving Repr, DecidableEq

/-- A `Result()` with no elements. -/
def Result.empty : Result := ⟨[], [], [], []⟩

/-- `Result.append`: `setdefault` into the collection of the element's own
class; elements with a `None` id fail `is_valid_type` and are dropped. -/
def Result.append (g : Result) (e : Elem) : Result :=
  match e with
  | .node n =>
    match n.id with
    | some i => { g with nodes := odSetdefault g.nodes i n }
    | none => g
  | .way w =>
    match w.id with
    | some i => { g with ways := odSetdefault g.ways i w }
    | none => g
  | .rel r =>
    match r.id with
    | some i => { g with rels := odSetdefault g.rels i r }
    | none => g

/-- One collection of `Result.expand`: walk the other collection's values in
order and adopt each valid element whose id is not yet present. -/
def expandColl {α : Type} (getId : α → Option Int)
    (own other : List (Int × α)) : List (Int × α) :=
  other.foldl
    (fun acc p =>
      match getId p.2 with
      | some i => if odHas acc i then acc else acc ++ [(i, p.2)]
      | none => acc)
    own

/-- `Result.expand`: merge the elements of another result, first write wins. -/
def Result.expand (g h : Result) : Result :=
  { g with
      nodes := expandColl (fun n => n.id) g.nodes h.nodes
      ways := expandColl (fun w => w.id) g.ways h.ways
      rels := expandColl (fun r => r.id) g.rels h.rels }

/-- The collection pairs the `Result` constructor builds with
`OrderedDict((element.id, element) ...)`: duplicate ids keep the first
position but the last value, per `dict` construction semantics. -/
def odOf {α : Type} (pairs : List (Int × α)) : List (Int × α) :=
  pairs.foldl (fun acc p => odSet acc p.1 p.2) []

/-- `Result.__init__(elements)`: each collection filters the elements by
`is_valid_type` for its kind. -/
def Result.ofElements (es : List Elem) : Result :=
  { nodes := odOf (es.filterMap fun e =>
      match e with
      | .node n => n.id.map fun i => (i, n)
      | _ => none)
  , ways := odOf (es.filterMap fun e =>
      match e with
      | .way w => w.id.map fun i => (i, w)
      | _ => none)
  , rels := odOf (es.filterMap fun e =>
      match e with
      | .rel r => r.id.map fun i => (i, r)
      | _ => none)
  , bnds := [] }

/-- The `(e.lon, e.lat)` pairs of the contained nodes, as exact rationals;
`none` when a coordinate is missing (Python's `min`/`float` would raise). -/
def collectCoords : List (Int × Node) → Option (List (ℚ × ℚ))
  | [] => some []
  | p :: r =>
    match p.2.lon, p.2.lat with
    | some lo, some la =>
      (collectCoords r).map (fun cs => (lo.toRat, la.toRat) :: cs)
    | _, _ => none

/-- `Result.get_bounds`: lazily computed lon/lat envelope; `none` models the
exception raised when there is no cached value and no node (`zip(*[])`
cannot be unpacked) or some node lacks a coordinate. Python stores the
envelope as floats; the claim's integral inputs convert exactly, so the
envelope is kept as exact rationals. -/
def Result.get_bounds (g : Result) : Option (List (String × ℚ)) :=
  if g.bnds.isEmpty then
    match collectCoords g.nodes with
    | none => none
    | some [] => none
    | some (c :: cs) =>
      some [("minlon", cs.foldl (fun m x => min m x.1) c.1),
            ("maxlon", cs.foldl (fun m x => max m x.1) c.1),
            ("minlat", cs.foldl (fun m x => min m x.2) c.2),
            ("maxlat", cs.foldl (fun m x => max m x.2) c.2)]
  else some g.bnds

/- ### Lazy resolution

The Overpass API handle is modelled as a function from query text to the
decoded result graph; `none` stands for a query that raised.  Each accessor
returns its outcome, the (possibly expanded) graph, and the query texts it
submitted, in order. -/

/-- Resolution failures (`overpy.exception`). -/
inductive RErr where
  | dataIncomplete (msg : String)
  | apiFail
deriving Repr, DecidableEq

/-- `str(id)` in a `format` placeholder. -/
def pyFormatId : Option Int → String
  | some i => toString i
  | none => "None"

/-- The single-object query synthesized by `Result.get_node`. -/
def node_query (i : Int) : String :=
  "\n[out:json];\nnode(" ++ toString i ++ ");\nout body;\n"

/-- The single-object query synthesized by `Result.get_way`. -/
def way_query (i : Int) : String :=
  "\n[out:json];\nway(" ++ toString i ++ ");\nout body;\n"

/-- The single-object query synthesized by `Result.get_relation`. -/
def relation_query (i : Int) : String :=
  "\n[out:json];\nrelation(" ++ toString i ++ ");\nout body;\n"

/-- The batch query synthesized by `Way.get_nodes` (formatted with the way's
own id). -/
def way_nodes_query (wid : Option Int) : String :=
  "\n[out:json];\nway(" ++ pyFormatId wid ++ ");\nnode(w);\nout body;\n"

/-- `Result.get_node(node_id, resolve_missing)`. -/
def Result.get_node (g : Result) (api : String → Option Result) (i : Int)
    (resolve_missing : Bool) : Except RErr Node × Result × List String :=
  match odGet g.nodes i with
  | some n => (.ok n, g, [])
  | none =>
    if resolve_missing = false then
      (.error (.dataIncomplete "Resolve missing nodes is disabled"), g, [])
    else
      match api (node_query i) with
      | none => (.error .apiFail, g, [node_query i])
      | some tmp =>
        let g2 := g.expand tmp
        match odGet g2.nodes i with
        | some n => (.ok n, g2, [node_query i])
        | none =>
          (.error (.dataIncomplete "Unable to resolve all nodes"), g2,
            [node_query i])

/-- `Result.get_way(way_id, resolve_missing)`. -/
def Result.get_way (g : Result) (api : String → Option Result) (i : Int)
    (resolve_missing : Bool) : Except RErr Way × Result × List String :=
  match odGet g.ways i with
  | some w => (.ok w, g, [])
  | none =>
    if resolve_missing = false then
      (.error (.dataIncomplete "Resolve missing way is disabled"), g, [])
    else
      match api (way_query i) with
      | none => (.error .apiFail, g, [way_query i])
      | some tmp =>
        let g2 := g.expand tmp
        match odGet g2.ways i with
        | some w => (.ok w, g2, [way_query i])
        | none =>
          (.error (.dataIncomplete "Unable to resolve requested way"), g2,
            [way_query i])

/-- `Result.get_relation(rel_id, resolve_missing)`. -/
def Result.get_relation (g : Result) (api : String → Option Result) (i : Int)
    (resolve_missing : Bool) : Except RErr Relation × Result × List String :=
  match odGet g.rels i with
  | some r => (.ok r, g, [])
  | none =>
    if resolve_missing = false then
      (.error (.dataIncomplete "Resolve missing relations is disabled"), g, [])
    else
      match api (relation_query i) with
      | none => (.error .apiFail, g, [relation_query i])
      | some tmp =>
        let g2 := g.expand tmp
        match odGet g2.rels i with
        | some r => (.ok r, g2, [relation_query i])
        | none =>
          (.error (.dataIncomplete "Unable to resolve requested reference"), g2,
            [relation_query i])

/-- The per-id loop of `Way.get_nodes`: each id is looked up through
`get_node` with resolution off (a miss is caught and treated as `None`);
the first miss triggers the single batch query, after which `resolved`
blocks any further query. -/
def wayGetNodesLoop (api : String → Option Result) (wq : String)
    (ids : List Int) (g : Result) (resolve_missing resolved : Bool)
    (acc : List Node) (qs : List String) :
    Except RErr (List Node) × Result × List String :=
  match ids with
  | [] => (.ok acc.reverse, g, qs.reverse)
  | i :: rest =>
    match odGet g.nodes i with
    | some n =>
      wayGetNodesLoop api wq rest g resolve_missing resolved (n :: acc) qs
    | none =>
      if resolve_missing = false then
        (.error (.dataIncomplete "Resolve missing nodes is disabled"), g,
          qs.reverse)
      else if resolved then
        (.error (.dataIncomplete "Unable to resolve all nodes"), g, qs.reverse)
      else
        match api wq with
        | none => (.error .apiFail, g, (wq :: qs).reverse)
        | some tmp =>
          let g2 := g.expand tmp
          match odGet g2.nodes i with
          | some n =>
            wayGetNodesLoop api wq rest g2 resolve_missing true (n :: acc)
              (wq :: qs)
          | none =>
            (.error (.dataIncomplete "Unable to resolve all nodes"), g2,
              (wq :: qs).reverse)

/-- `Way.get_nodes(resolve_missing)` against the way's owning graph. -/
def Way.get_nodes (w : Way) (g : Result) (api : String → Option Result)
    (resolve_missing : Bool) : Except RErr (List Node) × Result × List String :=
  wayGetNodesLoop api (way_nodes_query w.id) w.node_ids g resolve_missing
    false [] []

/-- Maximal whitespace-free words of a character list, in order. -/
def wordsAux : List Char → List Char × List (List Char)
  | [] => ([], [])
  | c :: r =>
    let (w, ws) := wordsAux r
    if pyWs c then ([], if w.isEmpty then ws else w :: ws)
    else (c :: w, ws)

def wordsOf (l : List Char) : List (List Char) :=
  let (w, ws) := wordsAux l
  if w.isEmpty then ws else w :: ws

def joinSpace : List (List Char) → List Char
  | [] => []
  | [w] => w
  | w :: ws => w ++ ' ' :: joinSpace ws

/-- Whitespace normalisation used to compare query shapes: runs of
whitespace become one space, outer whitespace is dropped. -/
def normalizeWs (s : String) : String :=
  String.mk (joinSpace (wordsOf s.toList))

/- ### Transport / failover client (`Overpass.query`)

The HTTP side is scripted: attempt `k` (counted across the whole call)
receives either a network-level error (`URLError`) or a response with a
status code, optional `Content-Type` header, and the (already
decompressed) body.  Sleeps are recorded as exact rationals; the code's
float arithmetic (`1.25 * (attempt + 1)`, `max(2.0, ...)`) is exact for
these values. -/

/-- One scripted transport attempt. -/
inductive Attempt where
  | netErr
  | resp (code : Nat) (contentType : Option String) (body : String)
deriving Repr, DecidableEq

/-- Terminal failures of `Overpass.query` (the `overpy.exception` classes). -/
inductive QErr where
  | badQuery (msgs : List String) (query : String)
  | tooManyRequests
  | gatewayTimeout
  | unknownContentType (ct : String)
  | unknownStatusCode (code : Nat)
  | netError
deriving Repr, DecidableEq

/-- Decode format chosen for a 200 response. -/
inductive Fmt where
  | json
  | xml
deriving Repr, DecidableEq

/-- `backoff_base * (attempt + 1)`. -/
def backoff (attempt : Nat) : ℚ := (5 / 4 : ℚ) * (attempt + 1)

/-- `content_type.split(";")[0].strip().lower()`. -/
def normCT (ct : String) : String :=
  String.mk ((pyStrip (ct.toList.takeWhile (fun c => c ≠ ';'))).map Char.toLower)

/-- First byte of `body.lstrip()`, if any. -/
def firstNonWsByte (s : String) : Option Char :=
  (s.toList.dropWhile pyWs).head?

/- #### 400 error-message extraction

`_regex_extract_error_msg = <p>(?P<msg><strong\s.*?)</p>` (no DOTALL, so
the lazy gap may not cross a newline), then `_regex_remove_tag = <[^>]*?>`
is erased from each captured group. -/

/-- Lazy scan to the closing `</p>`: the shortest newline-free prefix
followed by `</p>`; returns the prefix and the text after `</p>`. -/
def lazyToClose : List Char → Option (List Char × List Char)
  | [] => none
  | c :: rest =>
    if c = '<' ∧ rest.take 3 = ['/', 'p', '>'] then some ([], rest.drop 3)
    else if c = '\n' then none
    else
      match lazyToClose rest with
      | some (m, r) => some (c :: m, r)
      | none => none

/-- Regex match of the error pattern anchored at the head of the input:
the captured `msg` group and the remainder after the match. -/
def matchMsgAt (s : List Char) : Option (List Char × List Char) :=
  if s.take 10 = ['<', 'p', '>', '<', 's', 't', 'r', 'o', 'n', 'g'] then
    match s.drop 10 with
    | [] => none
    | w :: t =>
      if pyWs w then
        match lazyToClose t with
        | some (m, r) =>
          some ('<' :: 's' :: 't' :: 'r' :: 'o' :: 'n' :: 'g' :: w :: m, r)
        | none => none
      else none
  else none

theorem lazyToClose_length {s m r : List Char}
    (h : lazyToClose s = some (m, r)) : r.length < s.length := by
  induction s generalizing m r with
  | nil => simp [lazyToClose] at h
  | cons c rest ih =>
    unfold lazyToClose at h
    by_cases h1 : c = '<' ∧ rest.take 3 = ['/', 'p', '>']
    · rw [if_pos h1] at h
      simp only [Option.some.injEq, Prod.mk.injEq] at h
      obtain ⟨-, hr⟩ := h
      subst hr
      have := List.length_drop 3 rest
      simp only [List.length_cons]
      omega
    · rw [if_neg h1] at h
      by_cases h2 : c = '\n'
      · rw [if_pos h2] at h; cases h
      · rw [if_neg h2] at h
        cases hrec : lazyToClose rest with
        | none => rw [hrec] at h; cases h
        | some p =>
          rw [hrec] at h
          obtain ⟨m0, r0⟩ := p
          simp only [Option.some.injEq, Prod.mk.injEq] at h
          obtain ⟨-, hr⟩ := h
          subst hr
          have := ih hrec
          simp only [List.length_cons]
          omega

theorem matchMsgAt_length {s m r : List Char}
    (h : matchMsgAt s = some (m, r)) : r.length < s.length := by
  unfold matchMsgAt at h
  by_cases h10 : s.take 10 = ['<', 'p', '>', '<', 's', 't', 'r', 'o', 'n', 'g']
  · rw [if_pos h10] at h
    cases hd : s.drop 10 with
    | nil => rw [hd] at h; cases h
    | cons w t =>
      rw [hd] at h
      dsimp only at h
      by_cases hw : pyWs w
      · rw [if_pos hw] at h
        cases hlc : lazyToClose t with
        | none => rw [hlc] at h; cases h
        | some p =>
          rw [hlc] at h
          obtain ⟨m0, r0⟩ := p
          simp only [Option.some.injEq, Prod.mk.injEq] at h
          obtain ⟨-, hr⟩ := h
          subst hr
          have h1 := lazyToClose_length hlc
          have h2 : s.length - 10 = (w :: t).length := by rw [← hd, List.length_drop]
          have h3 : 10 ≤ s.length := by
            have hlen : min 10 s.length = 10 := by
              simpa using congrArg List.length h10
            omega
          simp only [List.length_cons] at h2
          omega
      · rw [if_neg hw] at h; cases h
  · rw [if_neg h10] at h; cases h

/-- `finditer` over the whole body, collecting the captured groups. -/
def findMsgsF : Nat → List Char → List (List Char)
  | 0, _ => []
  | _ + 1, [] => []
  | fuel + 1, c :: rest =>
    match matchMsgAt (c :: rest) with
    | some (m, r) => m :: findMsgsF fuel r
    | none => findMsgsF fuel rest

theorem findMsgsF_nil (f : Nat) : findMsgsF f [] = [] := by
  cases f <;> rfl

/-- `s.length` steps always suffice: every loop iteration strictly shrinks
the input, so the fuelled scan never truncates. -/
theorem findMsgsF_fuel :
    ∀ (f1 f2 : Nat) (s : List Char), s.length ≤ f1 → s.length ≤ f2 →
      findMsgsF f1 s = findMsgsF f2 s := by
  intro f1
  induction f1 using Nat.strong_induction_on with
  | _ f1 ih =>
    intro f2 s h1 h2
    cases s with
    | nil => rw [findMsgsF_nil, findMsgsF_nil]
    | cons c rest =>
      have hp1 : 0 < f1 := by
        have : 0 < (c :: rest).length := by simp
        omega
      have hp2 : 0 < f2 := by
        have : 0 < (c :: rest).length := by simp
        omega
      obtain ⟨g1, rfl⟩ : ∃ g, f1 = g + 1 := ⟨f1 - 1, by omega⟩
      obtain ⟨g2, rfl⟩ : ∃ g, f2 = g + 1 := ⟨f2 - 1, by omega⟩
      have hlen : rest.length ≤ g1 ∧ rest.length ≤ g2 := by
        simp only [List.length_cons] at h1 h2
        omega
      simp only [findMsgsF]
      cases hm : matchMsgAt (c :: rest) with
      | some p =>
        obtain ⟨m, r⟩ := p
        have hlt := matchMsgAt_length hm
        simp only [List.length_cons] at hlt
        exact congrArg (List.cons m) (ih g1 (by omega) g2 r (by omega) (by omega))
      | none =>
        exact ih g1 (by omega) g2 rest hlen.1 hlen.2

def findMsgs (s : List Char) : List (List Char) := findMsgsF s.length s

/-- Consume up to and including the next `>`. -/
def dropToGt : List Char → Option (List Char)
  | [] => none
  | c :: r => if c = '>' then some r else dropToGt r

theorem dropToGt_length {s r : List Char} (h : dropToGt s = some r) :
    r.length < s.length := by
  induction s generalizing r with
  | nil => simp [dropToGt] at h
  | cons c t ih =>
    unfold dropToGt at h
    by_cases hc : c = '>'
    · rw [if_pos hc] at h
      cases h
      simp
    · rw [if_neg hc] at h
      have := ih h
      simp only [List.length_cons]
      omega

/-- `_regex_remove_tag.sub(b"", msg)`: erase every `<...>` span. -/
def stripTagsF : Nat → List Char → List Char
  | 0, _ => []
  | _ + 1, [] => []
  | fuel + 1, c :: rest =>
    if c = '<' then
      match dropToGt rest with
      | some r => stripTagsF fuel r
      | none => c :: stripTagsF fuel rest
    else c :: stripTagsF fuel rest

theorem stripTagsF_nil (f : Nat) : stripTagsF f [] = [] := by
  cases f <;> rfl

/-- `s.length` steps always suffice for the tag eraser. -/
theorem stripTagsF_fuel :
    ∀ (f1 f2 : Nat) (s : List Char), s.length ≤ f1 → s.length ≤ f2 →
      stripTagsF f1 s = stripTagsF f2 s := by
  intro f1
  induction f1 using Nat.strong_induction_on with
  | _ f1 ih =>
    intro f2 s h1 h2
    cases s with
    | nil => rw [stripTagsF_nil, stripTagsF_nil]
    | cons c rest =>
      have hp1 : 0 < f1 := by
        have : 0 < (c :: rest).length := by simp
        omega
      have hp2 : 0 < f2 := by
        have : 0 < (c :: rest).length := by simp
        omega
      obtain ⟨g1, rfl⟩ : ∃ g, f1 = g + 1 := ⟨f1 - 1, by omega⟩
      obtain ⟨g2, rfl⟩ : ∃ g, f2 = g + 1 := ⟨f2 - 1, by omega⟩
      have hrest : rest.length ≤ g1 ∧ rest.length ≤ g2 := by
        simp only [List.length_cons] at h1 h2
        omega
      simp only [stripTagsF]
      by_cases hc : c = '<'
      · simp only [if_pos hc]
        cases hd : dropToGt rest with
        | some r =>
          have := dropToGt_length hd
          exact ih g1 (by omega) g2 r (by omega) (by omega)
        | none =>
          exact congrArg (List.cons c) (ih g1 (by omega) g2 rest hrest.1 hrest.2)
      · simp only [if_neg hc]
        exact congrArg (List.cons c) (ih g1 (by omega) g2 rest hrest.1 hrest.2)

def stripTags (s : List Char) : List Char := stripTagsF s.length s

/-- The message list a 400 response yields. -/
def extractMsgs (body : String) : List String :=
  (findMsgs body.toList).map (fun m => String.mk (stripTags m))

/-- Dispatch of a 200 response on its content type (`Overpass.query`,
success branch).  `parse_json` / `parse_xml` bodies are not part of the
sources; per the specification they decode the body with the JSON / XML
wire codec, so the outcome records which codec receives the body. -/
def dispatch200 (ctHdr : Option String) (body : String) :
    Except QErr (Fmt × String) :=
  let ct := ctHdr.getD ""
  let c := normCT ct
  if c = "application/json" then .ok (.json, body)
  else if c = "application/osm3s+xml" ∨ c = "application/xml" ∨ c = "text/xml"
  then .ok (.xml, body)
  else
    match firstNonWsByte body with
    | some b =>
      if b = '\x7b' then .ok (.json, body)
      else if b = '<' then .ok (.xml, body)
      else .error (.unknownContentType ct)
    | none => .error (.unknownContentType ct)

instance exceptDecEq {ε α : Type} [DecidableEq ε] [DecidableEq α] :
    DecidableEq (Except ε α)
  | .ok a, .ok b =>
    if h : a = b then .isTrue (by rw [h])
    else .isFalse (by intro e; cases e; exact h rfl)
  | .error a, .error b =>
    if h : a = b then .isTrue (by rw [h])
    else .isFalse (by intro e; cases e; exact h rfl)
  | .ok _, .error _ => .isFalse (by intro e; cases e)
  | .error _, .ok _ => .isFalse (by intro e; cases e)

/-- Outcome of the per-server attempt loop. -/
structure LoopOut where
  result : Option (Except QErr (Fmt × String))
  idx : Nat
  sleeps : List ℚ
  sawNet : Bool
  lastCode : Option Nat
deriving Repr, DecidableEq

/-- The `for attempt in range(self.max_tries)` loop on one server.  `idx`
numbers the attempts across the whole call (the scripted transport's
clock); `fuel` is the number of loop iterations left (`maxTries` on
entry, so `attempt = maxTries - fuel` throughout); `none` as `result`
means the loop fell through or broke and the next server is tried. -/
def serverLoop (q : String) (tr : Nat → Attempt) (idx maxTries attempt : Nat)
    (fuel : Nat) (sawNet : Bool) (lastCode : Option Nat) : LoopOut :=
  match fuel with
  | 0 => ⟨none, idx, [], sawNet, lastCode⟩
  | f + 1 =>
    match tr idx with
    | .netErr =>
      let rest :=
        serverLoop q tr (idx + 1) maxTries (attempt + 1) f true lastCode
      { rest with sleeps := backoff attempt :: rest.sleeps }
    | .resp code ct body =>
      if code = 200 then
        ⟨some (dispatch200 ct body), idx + 1, [], sawNet, some code⟩
      else if code = 400 then
        ⟨some (.error (.badQuery (extractMsgs body) q)), idx + 1, [], sawNet,
          some code⟩
      else if code = 429 then
        let s := max 2 (backoff attempt)
        if attempt + 1 ≥ maxTries then
          ⟨some (.error .tooManyRequests), idx + 1, [s], sawNet, some code⟩
        else
          let rest :=
            serverLoop q tr (idx + 1) maxTries (attempt + 1) f sawNet
              (some code)
          { rest with sleeps := s :: rest.sleeps }
      else if code = 504 then
        let s := backoff attempt
        if attempt + 1 ≥ maxTries then
          ⟨some (.error .gatewayTimeout), idx + 1, [s], sawNet, some code⟩
        else
          let rest :=
            serverLoop q tr (idx + 1) maxTries (attempt + 1) f sawNet
              (some code)
          { rest with sleeps := s :: rest.sleeps }
      else if code = 403 ∨ code = 502 ∨ code = 503 then
        ⟨none, idx + 1, [backoff attempt], sawNet, some code⟩
      else
        ⟨some (.error (.unknownStatusCode code)), idx + 1, [], sawNet,
          some code⟩

/-- The outcome of a whole `Overpass.query` call. -/
structure QOut where
  result : Except QErr (Fmt × String)
  consumed : Nat
  sleeps : List ℚ
deriving Repr, DecidableEq

/-- The `for server in self._servers` loop; servers are interchangeable in
the model, so only their count matters. -/
def serversLoop (q : String) (tr : Nat → Attempt) (nServers idx maxTries : Nat)
    (sawNet : Bool) (lastCode : Option Nat) : QOut :=
  match nServers with
  | 0 =>
    ⟨.error (if sawNet then .netError else .unknownStatusCode (lastCode.getD 0)),
      idx, []⟩
  | n + 1 =>
    let lo := serverLoop q tr idx maxTries 0 maxTries sawNet lastCode
    match lo.result with
    | some r => ⟨r, lo.idx, lo.sleeps⟩
    | none =>
      let rest := serversLoop q tr n lo.idx maxTries lo.sawNet lo.lastCode
      { rest with sleeps := lo.sleeps ++ rest.sleeps }

/-- `Overpass.query(q)` under a scripted transport: the constructor clamps
`max_tries` to at least 1. -/
def overpassQuery (q : String) (tr : Nat → Attempt) (nServers maxTries : Nat) :
    QOut :=
  serversLoop q tr nServers 0 (max 1 maxTries) false none

/- ### XML wire codec

XML input is modelled as the element tree `xml.etree.ElementTree` builds.
The whole-document strategy walks the root's direct children three times
(nodes, then ways, then relations); the streaming strategy processes the
`start` event of every element in document order and clears each element
at its `end` event.  The streaming model gives each `start` event the
element's full subtree, which is what the code sees whenever the source
fits in one read chunk of the pull parser; chunk-boundary effects on
larger inputs are an I/O-buffering phenomenon outside this embedding. -/

/-- `str.lower()` restricted to ASCII case mapping (kernel-computable). -/
def String.pyLower (s : String) : String :=
  String.mk (s.toList.map Char.toLower)

/-- An XML element: tag, attributes, children. -/
inductive Xml where
  | el (tag : String) (attrib : List (String × String)) (children : List Xml)

def Xml.tag : Xml → String
  | .el t _ _ => t

def Xml.attrib : Xml → List (String × String)
  | .el _ a _ => a

def Xml.children : Xml → List Xml
  | .el _ _ cs => cs

/-- Decode failures (exceptions raised while parsing one element). -/
inductive DErr where
  | wrongType (expected provided : String)
  | tagWithoutKey
  | refMissing
  | badInt
  | badNumber
deriving Repr, DecidableEq

/-- Optional integer attribute: absent is `None`, malformed text raises. -/
def attrIntOpt (attrib : List (String × String)) (k : String) :
    Except DErr (Option Int) :=
  match odGet attrib k with
  | none => .ok none
  | some s =>
    match parseInt s with
    | none => .error .badInt
    | some i => .ok (some i)

/-- Optional Decimal attribute: absent is `None`, malformed text raises
`InvalidOperation`. -/
def attrDecOpt (attrib : List (String × String)) (k : String) :
    Except DErr (Option Dec) :=
  match odGet attrib k with
  | none => .ok none
  | some s =>
    match parseDecimal s with
    | none => .error .badNumber
    | some d => .ok (some d)

/-- The `tag` sub-children loop shared by the element parsers (explicit
recursion over the children, accumulating the tag dictionary). -/
def parseTagsLoop : List Xml → List (String × Option String) →
    Except DErr (List (String × Option String))
  | [], acc => .ok acc
  | c :: rest, acc =>
    if c.tag.pyLower = "tag" then
      match odGet c.attrib "k" with
      | none => .error .tagWithoutKey
      | some name => parseTagsLoop rest (odSet acc name (odGet c.attrib "v"))
    else parseTagsLoop rest acc

def parseTags (children : List Xml) :
    Except DErr (List (String × Option String)) :=
  parseTagsLoop children []

/-- `Node.from_xml`. -/
def Node.from_xml (child : Xml) : Except DErr Node :=
  if child.tag.pyLower ≠ "node" then
    .error (.wrongType "node" child.tag.pyLower)
  else
    match parseTags child.children with
    | .error e => .error e
    | .ok tags =>
      match attrIntOpt child.attrib "id" with
      | .error e => .error e
      | .ok nid =>
        match attrDecOpt child.attrib "lat" with
        | .error e => .error e
        | .ok lat =>
          match attrDecOpt child.attrib "lon" with
          | .error e => .error e
          | .ok lon =>
            .ok ⟨nid, lat, lon, tags,
              child.attrib.filter
                (fun p => decide (p.1 ≠ "id" ∧ p.1 ≠ "lat" ∧ p.1 ≠ "lon"))⟩

/-- The sub-children loop of `Way.from_xml`: one walk collecting both the
tag dictionary and the ordered `nd` references (the two tag tests of the
source loop are mutually exclusive). -/
def wayChildrenLoop : List Xml → List (String × Option String) → List Int →
    Except DErr (List (String × Option String) × List Int)
  | [], tags, nds => .ok (tags, nds)
  | c :: rest, tags, nds =>
    if c.tag.pyLower = "tag" then
      match odGet c.attrib "k" with
      | none => .error .tagWithoutKey
      | some name =>
        wayChildrenLoop rest (odSet tags name (odGet c.attrib "v")) nds
    else if c.tag.pyLower = "nd" then
      match odGet c.attrib "ref" with
      | none => .error .refMissing
      | some s =>
        match parseInt s with
        | none => .error .badInt
        | some i => wayChildrenLoop rest tags (nds ++ [i])
    else wayChildrenLoop rest tags nds

/-- `Way.from_xml`. -/
def Way.from_xml (child : Xml) : Except DErr Way :=
  if child.tag.pyLower ≠ "way" then
    .error (.wrongType "way" child.tag.pyLower)
  else
    match wayChildrenLoop child.children [] [] with
    | .error e => .error e
    | .ok (tags, nds) =>
      match attrIntOpt child.attrib "id" with
      | .error e => .error e
      | .ok wid =>
        .ok ⟨wid, nds, tags,
          child.attrib.filter (fun p => decide (p.1 ≠ "id"))⟩

/-- `RelationMember.from_xml` (the caller dispatched on the `type`
attribute, so the class check passes). -/
def memberFromXml (kind : Kind) (sc : Xml) : Except DErr Member :=
  match attrIntOpt sc.attrib "ref" with
  | .error e => .error e
  | .ok ref => .ok ⟨kind, ref, odGet sc.attrib "role"⟩

/-- The sub-children loop of `Relation.from_xml`: `member` children with an
unrecognized `type` attribute are silently dropped. -/
def relChildrenLoop : List Xml → List (String × Option String) → List Member →
    Except DErr (List (String × Option String) × List Member)
  | [], tags, mems => .ok (tags, mems)
  | c :: rest, tags, mems =>
    if c.tag.pyLower = "tag" then
      match odGet c.attrib "k" with
      | none => .error .tagWithoutKey
      | some name =>
        relChildrenLoop rest (odSet tags name (odGet c.attrib "v")) mems
    else if c.tag.pyLower = "member" then
      match odGet c.attrib "type" with
      | some "node" =>
        match memberFromXml .node c with
        | .error e => .error e
        | .ok m => relChildrenLoop rest tags (mems ++ [m])
      | some "way" =>
        match memberFromXml .way c with
        | .error e => .error e
        | .ok m => relChildrenLoop rest tags (mems ++ [m])
      | some "relation" =>
        match memberFromXml .relation c with
        | .error e => .error e
        | .ok m => relChildrenLoop rest tags (mems ++ [m])
      | _ => relChildrenLoop rest tags mems
    else relChildrenLoop rest tags mems

/-- `Relation.from_xml`. -/
def Relation.from_xml (child : Xml) : Except DErr Relation :=
  if child.tag.pyLower ≠ "relation" then
    .error (.wrongType "relation" child.tag.pyLower)
  else
    match relChildrenLoop child.children [] [] with
    | .error e => .error e
    | .ok (tags, mems) =>
      match attrIntOpt child.attrib "id" with
      | .error e => .error e
      | .ok rid =>
        .ok ⟨rid, mems, tags,
          child.attrib.filter (fun p => decide (p.1 ≠ "id"))⟩

/-- Parse one XML element as the given kind. -/
def elemFromXml : Kind → Xml → Except DErr Elem
  | .node, x => (Node.from_xml x).map .node
  | .way, x => (Way.from_xml x).map .way
  | .relation, x => (Relation.from_xml x).map .rel

/-- One pass of the whole-document strategy: append every direct child of
the root whose lowercased tag matches the kind. -/
def appendPass (k : Kind) (cs : List Xml) (g : Result) : Except DErr Result :=
  match cs with
  | [] => .ok g
  | c :: rest =>
    if c.tag.pyLower = k.typeValue then
      match elemFromXml k c with
      | .error e => .error e
      | .ok el => appendPass k rest (g.append el)
    else appendPass k rest g

/-- `Result.from_xml(data, iterparse=False)`. -/
def Result.from_xml_full (root : Xml) : Except DErr Result :=
  match appendPass .node root.children Result.empty with
  | .error e => .error e
  | .ok g =>
    match appendPass .way root.children g with
    | .error e => .error e
    | .ok g2 => appendPass .relation root.children g2

mutual
/-- The elements whose `start` event fires, in document order. -/
def Xml.startEvents : Xml → List Xml
  | .el t a cs => .el t a cs :: startEventsList cs
def startEventsList : List Xml → List Xml
  | [] => []
  | c :: cs => Xml.startEvents c ++ startEventsList cs
end

mutual
/-- The elements whose `end` event fires (each of which the streaming
consumer clears), in document order. -/
def Xml.endEvents : Xml → List Xml
  | .el t a cs => endEventsList cs ++ [.el t a cs]
def endEventsList : List Xml → List Xml
  | [] => []
  | c :: cs => Xml.endEvents c ++ endEventsList cs
end

/-- The `bounds` attribute dictionary mapped through `float(v)`; `none`
when some value fails to parse (`float` raises `ValueError`). -/
def boundsOf : List (String × String) → Option (List (String × ℚ))
  | [] => some []
  | p :: rest =>
    match parseDecimal p.2 with
    | none => none
    | some d => (boundsOf rest).map (fun bs => (p.1, d.toRat) :: bs)

/-- Processing of one `start` event by the streaming strategy. -/
def iterStep (g : Result) (c : Xml) : Except DErr Result :=
  match (if c.tag.pyLower = "bounds" then
           match boundsOf c.attrib with
           | none => Except.error DErr.badNumber
           | some b => Except.ok { g with bnds := b }
         else Except.ok g : Except DErr Result) with
  | .error e => .error e
  | .ok g1 =>
    if c.tag.pyLower = "node" then
      match elemFromXml .node c with
      | .error e => .error e
      | .ok el => .ok (g1.append el)
    else if c.tag.pyLower = "way" then
      match elemFromXml .way c with
      | .error e => .error e
      | .ok el => .ok (g1.append el)
    else if c.tag.pyLower = "relation" then
      match elemFromXml .relation c with
      | .error e => .error e
      | .ok el => .ok (g1.append el)
    else .ok g1

/-- Fold of the streaming strategy over the `start` events. -/
def iterFold (es : List Xml) (g : Result) : Except DErr Result :=
  match es with
  | [] => .ok g
  | c :: rest =>
    match iterStep g c with
    | .error e => .error e
    | .ok g2 => iterFold rest g2

/-- `Result.from_xml(data, iterparse=True)`. -/
def Result.from_xml_iter (root : Xml) : Except DErr Result :=
  iterFold root.startEvents Result.empty

/- ### Dictionary lemmas -/

theorem odGet_append {κ α : Type} [DecidableEq κ] (l m : List (κ × α)) (k : κ) :
    odGet (l ++ m) k
      = match odGet l k with
        | some v => some v
        | none => odGet m k := by
  induction l with
  | nil => simp [odGet]
  | cons p r ih =>
    by_cases h : p.1 = k
    · simp [odGet, h]
    · simp only [List.cons_append, odGet, if_neg h]
      exact ih

theorem odGet_singleton_self {κ α : Type} [DecidableEq κ] (k : κ) (v : α) :
    odGet [(k, v)] k = some v := by
  simp [odGet]

theorem odSetdefault_of_has {κ α : Type} [DecidableEq κ]
    {l : List (κ × α)} {k : κ} (v : α) (h : odHas l k = true) :
    odSetdefault l k v = l := by
  simp [odSetdefault, h]

theorem odGet_setdefault_self {κ α : Type} [DecidableEq κ]
    (l : List (κ × α)) (k : κ) (v : α) :
    odGet (odSetdefault l k v) k = some ((odGet l k).getD v) := by
  unfold odSetdefault odHas
  cases h : odGet l k with
  | some w => simp [h]
  | none =>
    simp only [h, Option.isSome_none, Bool.false_eq_true, if_false]
    rw [odGet_append, h, odGet_singleton_self]
    rfl

theorem odHas_setdefault_self {κ α : Type} [DecidableEq κ]
    (l : List (κ × α)) (k : κ) (v : α) :
    odHas (odSetdefault l k v) k = true := by
  unfold odHas
  rw [odGet_setdefault_self]
  rfl

theorem odSetdefault_idem {κ α : Type} [DecidableEq κ]
    (l : List (κ × α)) (k : κ) (v w : α) :
    odSetdefault (odSetdefault l k v) k w = odSetdefault l k v :=
  odSetdefault_of_has w (odHas_setdefault_self l k v)

/- ### expandColl lemmas -/

theorem expandColl_cons {α : Type} (getId : α → Option Int)
    (own : List (Int × α)) (p : Int × α) (rest : List (Int × α)) :
    expandColl getId own (p :: rest)
      = expandColl getId
          (match getId p.2 with
           | some i => if odHas own i then own else own ++ [(i, p.2)]
           | none => own)
          rest := rfl

theorem odGet_append_single_ne {κ α : Type} [DecidableEq κ]
    (l : List (κ × α)) {i k : κ} (v : α) (h : i ≠ k) :
    odGet (l ++ [(i, v)]) k = odGet l k := by
  rw [odGet_append]
  cases hg : odGet l k with
  | some w => rfl
  | none => simp [odGet, h]

theorem expandColl_get_of_has {α : Type} (getId : α → Option Int)
    (other : List (Int × α)) :
    ∀ own k, odHas own k = true →
      odGet (expandColl getId own other) k = odGet own k := by
  induction other with
  | nil => intro own k _; rfl
  | cons p rest ih =>
    intro own k h
    rw [expandColl_cons]
    cases hid : getId p.2 with
    | none => exact ih own k h
    | some i =>
      by_cases hhas : odHas own i
      · simp only [hhas, if_true]
        exact ih own k h
      · simp only [hhas, Bool.false_eq_true, if_false]
        have hik : i ≠ k := by
          intro e
          subst e
          rw [h] at hhas
          exact hhas rfl
        have hkeep : odGet (own ++ [(i, p.2)]) k = odGet own k :=
          odGet_append_single_ne own p.2 hik
        have hhas2 : odHas (own ++ [(i, p.2)]) k = true := by
          unfold odHas
          rw [hkeep]
          exact h
        rw [ih (own ++ [(i, p.2)]) k hhas2, hkeep]

theorem expandColl_has_mono {α : Type} (getId : α → Option Int)
    (other : List (Int × α)) (own : List (Int × α)) (k : Int)
    (h : odHas own k = true) :
    odHas (expandColl getId own other) k = true := by
  unfold odHas at h ⊢
  rw [expandColl_get_of_has getId other own k (by unfold odHas; exact h)]
  exact h

theorem expandColl_has_all {α : Type} (getId : α → Option Int)
    (other : List (Int × α)) :
    ∀ own p, p ∈ other → ∀ i, getId p.2 = some i →
      odHas (expandColl getId own other) i = true := by
  induction other with
  | nil => intro own p hp; cases hp
  | cons q rest ih =>
    intro own p hp i hi
    rw [expandColl_cons]
    rcases List.mem_cons.mp hp with he | ht
    · subst he
      rw [hi]
      by_cases hhas : odHas own i
      · simp only [hhas, if_true]
        exact expandColl_has_mono getId rest own i hhas
      · simp only [hhas, Bool.false_eq_true, if_false]
        apply expandColl_has_mono
        unfold odHas
        rw [odGet_append]
        cases hg : odGet own i with
        | some w => rfl
        | none => rw [odGet_singleton_self]; rfl
    · exact ih _ p ht i hi

theorem expandColl_no_new {α : Type} (getId : α → Option Int)
    (other : List (Int × α)) :
    ∀ own, (∀ p ∈ other, ∀ i, getId p.2 = some i → odHas own i = true) →
      expandColl getId own other = own := by
  induction other with
  | nil => intro own _; rfl
  | cons q rest ih =>
    intro own h
    rw [expandColl_cons]
    cases hid : getId q.2 with
    | none => exact ih own (fun p hp i hi => h p (by simp [hp]) i hi)
    | some i =>
      have hq := h q (by simp) i hid
      simp only [hq, if_true]
      exact ih own (fun p hp j hj => h p (by simp [hp]) j hj)

theorem expandColl_idem {α : Type} (getId : α → Option Int)
    (own other : List (Int × α)) :
    expandColl getId (expandColl getId own other) other
      = expandColl getId own other :=
  expandColl_no_new getId other _
    (fun p hp i hi => expandColl_has_all getId other own p hp i hi)

/- ### First-write-wins (append / expand) -/

/-- Is the element's id already present in the collection of its kind? -/
def Result.hasElem (g : Result) (e : Elem) : Bool :=
  match e with
  | .node n =>
    match n.id with
    | some i => odHas g.nodes i
    | none => false
  | .way w =>
    match w.id with
    | some i => odHas g.ways i
    | none => false
  | .rel r =>
    match r.id with
    | some i => odHas g.rels i
    | none => false

/-- **C6** — first write wins in the Result graph: appending an element
whose id its kind's collection already holds is a no-op; appending the
same element twice equals appending it once; the value stored after an
append is the previously stored one when the id was present, the new
element otherwise; `expand` never changes the binding of an id already
present, makes every valid element id of the other graph present, and is
idempotent. -/
theorem c6_append_expand_first_write_wins :
    (∀ (g : Result) (e : Elem), g.hasElem e = true → g.append e = g)
    ∧ (∀ (g : Result) (e : Elem), (g.append e).append e = g.append e)
    ∧ (∀ (g : Result) (n : Node) (i : Int), n.id = some i →
        odGet ((g.append (.node n)).nodes) i = some ((odGet g.nodes i).getD n))
    ∧ (∀ (g h : Result) (k : Int), odHas g.nodes k = true →
        odGet (g.expand h).nodes k = odGet g.nodes k)
    ∧ (∀ (g h : Result) (k : Int), odHas g.ways k = true →
        odGet (g.expand h).ways k = odGet g.ways k)
    ∧ (∀ (g h : Result) (k : Int), odHas g.rels k = true →
        odGet (g.expand h).rels k = odGet g.rels k)
    ∧ (∀ (g h : Result) (p : Int × Node) (i : Int), p ∈ h.nodes →
        p.2.id = some i → odHas (g.expand h).nodes i = true)
    ∧ (∀ (g h : Result), (g.expand h).expand h = g.expand h) := by
  refine ⟨?_, ?_, ?_, ?_, ?_, ?_, ?_, ?_⟩
  · intro g e h
    cases e with
    | node n =>
      cases hid : n.id with
      | none => simp [Result.append, hid]
      | some i =>
        simp only [Result.hasElem, hid] at h
        simp [Result.append, hid, odSetdefault_of_has n h]
    | way w =>
      cases hid : w.id with
      | none => simp [Result.append, hid]
      | some i =>
        simp only [Result.hasElem, hid] at h
        simp [Result.append, hid, odSetdefault_of_has w h]
    | rel r =>
      cases hid : r.id with
      | none => simp [Result.append, hid]
      | some i =>
        simp only [Result.hasElem, hid] at h
        simp [Result.append, hid, odSetdefault_of_has r h]
  · intro g e
    cases e with
    | node n =>
      cases hid : n.id with
      | none => simp [Result.append, hid]
      | some i => simp [Result.append, hid, odSetdefault_idem]
    | way w =>
      cases hid : w.id with
      | none => simp [Result.append, hid]
      | some i => simp [Result.append, hid, odSetdefault_idem]
    | rel r =>
      cases hid : r.id with
      | none => simp [Result.append, hid]
      | some i => simp [Result.append, hid, odSetdefault_idem]
  · intro g n i hid
    simp [Result.append, hid, odGet_setdefault_self]
  · intro g h k hk
    exact expandColl_get_of_has _ h.nodes g.nodes k hk
  · intro g h k hk
    exact expandColl_get_of_has _ h.ways g.ways k hk
  · intro g h k hk
    exact expandColl_get_of_has _ h.rels g.rels k hk
  · intro g h p i hp hi
    exact expandColl_has_all _ h.nodes g.nodes p hp i hi
  · intro g h
    show Result.mk _ _ _ _ = Result.mk _ _ _ _
    simp only [Result.expand, expandColl_idem]

/-- Witness for C6 at concrete inputs. -/
def nodeA : Node := ⟨some 1, some ⟨50, 0⟩, some ⟨10, 0⟩, [], []⟩

def nodeB : Node := ⟨some 2, some ⟨52, 0⟩, some ⟨12, 0⟩, [], []⟩

def gAB : Result := Result.ofElements [.node nodeA, .node nodeB]

def gA : Result := Result.ofElements [.node nodeA]

theorem c6_witness :
    gAB.hasElem (.node nodeA) = true
    ∧ gAB.append (.node nodeA) = gAB
    ∧ (gA.append (.node nodeB)).append (.node nodeB) = gA.append (.node nodeB)
    ∧ odGet ((gAB.append (.node nodeA)).nodes) 1
        = some ((odGet gAB.nodes 1).getD nodeA)
    ∧ odHas gAB.nodes 1 = true
    ∧ odGet (gAB.expand gA).nodes 1 = odGet gAB.nodes 1
    ∧ (gAB.expand gA).expand gA = gAB.expand gA := by
  refine ⟨by decide, ?_, ?_, ?_, by decide, ?_, ?_⟩
  · exact c6_append_expand_first_write_wins.1 gAB (.node nodeA) (by decide)
  · exact c6_append_expand_first_write_wins.2.1 gA (.node nodeB)
  · exact c6_append_expand_first_write_wins.2.2.1 gAB nodeA 1 (by decide)
  · exact c6_append_expand_first_write_wins.2.2.2.1 gAB gA 1 (by decide)
  · exact c6_append_expand_first_write_wins.2.2.2.2.2.2.2 gAB gA

/- ### Collection invariants (C10) -/

/-- Every entry of the collection stores an element whose own id equals the
key it is stored under (`some`, hence never `None`); the kind matches by
the collection's type. -/
def collWF {α : Type} (getId : α → Option Int) (l : List (Int × α)) : Prop :=
  ∀ p ∈ l, getId p.2 = some p.1

/-- The graph invariant over all three collections. -/
def Result.WF (g : Result) : Prop :=
  collWF (fun n => n.id) g.nodes ∧ collWF (fun w => w.id) g.ways
    ∧ collWF (fun r => r.id) g.rels

theorem collWF_odSet {α : Type} {getId : α → Option Int}
    {l : List (Int × α)} (h : collWF getId l) {k : Int} {v : α}
    (hv : getId v = some k) : collWF getId (odSet l k v) := by
  induction l with
  | nil =>
    intro p hp
    simp only [odSet, List.mem_singleton] at hp
    subst hp
    exact hv
  | cons q r ih =>
    intro p hp
    unfold odSet at hp
    by_cases hq : q.1 = k
    · rw [if_pos hq] at hp
      rcases List.mem_cons.mp hp with he | ht
      · subst he; exact hv
      · exact h p (by simp [ht])
    · rw [if_neg hq] at hp
      rcases List.mem_cons.mp hp with he | ht
      · subst he; exact h p (by simp)
      · exact ih (fun x hx => h x (by simp [hx])) p ht

theorem collWF_odSetdefault {α : Type} {getId : α → Option Int}
    {l : List (Int × α)} (h : collWF getId l) {k : Int} {v : α}
    (hv : getId v = some k) : collWF getId (odSetdefault l k v) := by
  unfold odSetdefault
  by_cases hh : odHas l k
  · rw [if_pos hh]; exact h
  · rw [if_neg hh]
    intro p hp
    rcases List.mem_append.mp hp with hl | hr
    · exact h p hl
    · simp only [List.mem_singleton] at hr
      subst hr
      exact hv

theorem collWF_odOf {α : Type} {getId : α → Option Int}
    {pairs : List (Int × α)} (h : ∀ p ∈ pairs, getId p.2 = some p.1) :
    collWF getId (odOf pairs) := by
  have aux : ∀ (ps : List (Int × α)) (acc : List (Int × α)),
      collWF getId acc → (∀ p ∈ ps, getId p.2 = some p.1) →
      collWF getId (ps.foldl (fun a p => odSet a p.1 p.2) acc) := by
    intro ps
    induction ps with
    | nil => intro acc hacc _; exact hacc
    | cons q r ih =>
      intro acc hacc hps
      simp only [List.foldl_cons]
      exact ih _ (collWF_odSet hacc (hps q (by simp)))
        (fun p hp => hps p (by simp [hp]))
  exact aux pairs [] (fun p hp => absurd hp (List.not_mem_nil p)) h

theorem collWF_expandColl {α : Type} {getId : α → Option Int}
    (other : List (Int × α)) :
    ∀ own, collWF getId own → collWF getId (expandColl getId own other) := by
  induction other with
  | nil => intro own h; exact h
  | cons q rest ih =>
    intro own h
    rw [expandColl_cons]
    cases hid : getId q.2 with
    | none => exact ih own h
    | some i =>
      by_cases hh : odHas own i
      · simp only [hh, if_true]
        exact ih own h
      · simp only [hh, Bool.false_eq_true, if_false]
        refine ih _ (fun p hp => ?_)
        rcases List.mem_append.mp hp with hl | hr
        · exact h p hl
        · simp only [List.mem_singleton] at hr
          subst hr
          exact hid

/-- **C10** — implicit collection invariant: every element a `Result` graph
stores sits under a key equal to its own (non-`None`) id, in the collection
of its own kind (the kind check is the collection's element type in this
closed model); the constructor, `append` and `expand` all silently drop
elements whose id is `None` instead of storing them or raising. -/
theorem c10_collection_invariants :
    (∀ (es : List Elem), (Result.ofElements es).WF)
    ∧ (∀ (g : Result) (e : Elem), g.WF → (g.append e).WF)
    ∧ (∀ (g h : Result), g.WF → (g.expand h).WF)
    ∧ (∀ (g : Result) (e : Elem), e.eid = none → g.append e = g)
    ∧ (∀ (es1 es2 : List Elem) (e : Elem), e.eid = none →
        Result.ofElements (es1 ++ e :: es2) = Result.ofElements (es1 ++ es2))
    ∧ (∀ (own other : List (Int × Node)) (p : Int × Node), p.2.id = none →
        expandColl (fun n => n.id) own (p :: other)
          = expandColl (fun n => n.id) own other) := by
  refine ⟨?_, ?_, ?_, ?_, ?_, ?_⟩
  · intro es
    refine ⟨collWF_odOf ?_, collWF_odOf ?_, collWF_odOf ?_⟩ <;>
      · intro p hp
        obtain ⟨e, -, hf⟩ := List.mem_filterMap.mp hp
        cases e <;> simp at hf
        obtain ⟨a, ha, rfl⟩ := hf
        exact ha
  · intro g e h
    obtain ⟨hn, hw, hr⟩ := h
    cases e with
    | node n =>
      cases hid : n.id with
      | none => simpa [Result.append, hid] using ⟨hn, hw, hr⟩
      | some i =>
        exact ⟨by simpa [Result.append, hid] using collWF_odSetdefault hn hid,
          by simpa [Result.append, hid] using hw,
          by simpa [Result.append, hid] using hr⟩
    | way w =>
      cases hid : w.id with
      | none => simpa [Result.append, hid] using ⟨hn, hw, hr⟩
      | some i =>
        exact ⟨by simpa [Result.append, hid] using hn,
          by simpa [Result.append, hid] using collWF_odSetdefault hw hid,
          by simpa [Result.append, hid] using hr⟩
    | rel r =>
      cases hid : r.id with
      | none => simpa [Result.append, hid] using ⟨hn, hw, hr⟩
      | some i =>
        exact ⟨by simpa [Result.append, hid] using hn,
          by simpa [Result.append, hid] using hw,
          by simpa [Result.append, hid] using collWF_odSetdefault hr hid⟩
  · intro g h hg
    exact ⟨collWF_expandColl h.nodes g.nodes hg.1,
      collWF_expandColl h.ways g.ways hg.2.1,
      collWF_expandColl h.rels g.rels hg.2.2⟩
  · intro g e he
    cases e with
    | node n => simp only [Elem.eid] at he; simp [Result.append, he]
    | way w => simp only [Elem.eid] at he; simp [Result.append, he]
    | rel r => simp only [Elem.eid] at he; simp [Result.append, he]
  · intro es1 es2 e he
    cases e with
    | node n =>
      simp only [Elem.eid] at he
      simp [Result.ofElements, List.filterMap_append, List.filterMap_cons, he]
    | way w =>
      simp only [Elem.eid] at he
      simp [Result.ofElements, List.filterMap_append, List.filterMap_cons, he]
    | rel r =>
      simp only [Elem.eid] at he
      simp [Result.ofElements, List.filterMap_append, List.filterMap_cons, he]
  · intro own other p hp
    rw [expandColl_cons, hp]

theorem c10_witness :
    (Result.ofElements [.node nodeA, .node nodeB]).WF
    ∧ gAB.WF
    ∧ (gAB.append (.way ⟨some 7, [1, 2], [], []⟩)).WF
    ∧ (gAB.expand gA).WF
    ∧ gAB.append (.node ⟨none, none, none, [], []⟩) = gAB
    ∧ Result.ofElements ([.node nodeA] ++ .node ⟨none, none, none, [], []⟩
        :: [.node nodeB]) = Result.ofElements ([.node nodeA] ++ [.node nodeB]) := by
  have h1 := c10_collection_invariants.1 [.node nodeA, .node nodeB]
  refine ⟨h1, h1, ?_, ?_, ?_, ?_⟩
  · exact c10_collection_invariants.2.1 gAB _ h1
  · exact c10_collection_invariants.2.2.1 gAB gA h1
  · exact c10_collection_invariants.2.2.2.1 gAB _ rfl
  · exact c10_collection_invariants.2.2.2.2.1 [.node nodeA] [.node nodeB] _ rfl

/- ### Bounds (C9) -/

/-- **C9** — `get_bounds` raises (modelled `none`) on a graph that has no
cached bounds and zero nodes; on the two-node graph with (lon, lat) pairs
(10, 50) and (12, 52) it returns the envelope 10/12/50/52. -/
theorem c9_bounds :
    (∀ g : Result, g.bnds = [] → g.nodes = [] → g.get_bounds = none)
    ∧ gAB.get_bounds = some [("minlon", 10), ("maxlon", 12),
        ("minlat", 50), ("maxlat", 52)] := by
  constructor
  · intro g h1 h2
    simp [Result.get_bounds, h1, h2, collectCoords]
  · have hb : gAB.bnds = [] := by decide
    have hn : gAB.nodes = [(1, nodeA), (2, nodeB)] := by decide
    unfold Result.get_bounds
    rw [hb, hn]
    norm_num [collectCoords, nodeA, nodeB, Dec.toRat, min_def, max_def]

theorem c9_witness : Result.empty.get_bounds = none :=
  c9_bounds.1 Result.empty rfl rfl

/- ### Lazy single-object resolution (C4) -/

/-- **C4** — each accessor does a local identity lookup first; a hit
returns the element untouched with no query; a miss with resolution off
fails with `DataIncomplete` leaving the graph unchanged and issuing no
query; a miss with resolution on issues exactly the one synthesized
single-object query, merges the decoded result via `expand`, and retries
the lookup exactly once, failing with `DataIncomplete` if the id is still
absent. -/
theorem c4_lazy_resolution :
    (∀ (g : Result) (a : String → Option Result) (i : Int) (n : Node),
        odGet g.nodes i = some n → ∀ rm, g.get_node a i rm = (.ok n, g, []))
    ∧ (∀ (g : Result) (a : String → Option Result) (i : Int),
        odGet g.nodes i = none → g.get_node a i false
          = (.error (.dataIncomplete "Resolve missing nodes is disabled"), g, []))
    ∧ (∀ (g : Result) (a : String → Option Result) (i : Int) (tmp : Result),
        odGet g.nodes i = none → a (node_query i) = some tmp →
        g.get_node a i true
          = (match odGet (g.expand tmp).nodes i with
             | some n => .ok n
             | none => .error (.dataIncomplete "Unable to resolve all nodes"),
             g.expand tmp, [node_query i]))
    ∧ (∀ (g : Result) (a : String → Option Result) (i : Int) (w : Way),
        odGet g.ways i = some w → ∀ rm, g.get_way a i rm = (.ok w, g, []))
    ∧ (∀ (g : Result) (a : String → Option Result) (i : Int),
        odGet g.ways i = none → g.get_way a i false
          = (.error (.dataIncomplete "Resolve missing way is disabled"), g, []))
    ∧ (∀ (g : Result) (a : String → Option Result) (i : Int) (tmp : Result),
        odGet g.ways i = none → a (way_query i) = some tmp →
        g.get_way a i true
          = (match odGet (g.expand tmp).ways i with
             | some w => .ok w
             | none => .error (.dataIncomplete "Unable to resolve requested way"),
             g.expand tmp, [way_query i]))
    ∧ (∀ (g : Result) (a : String → Option Result) (i : Int) (r : Relation),
        odGet g.rels i = some r → ∀ rm, g.get_relation a i rm = (.ok r, g, []))
    ∧ (∀ (g : Result) (a : String → Option Result) (i : Int),
        odGet g.rels i = none → g.get_relation a i false
          = (.error (.dataIncomplete "Resolve missing relations is disabled"),
              g, []))
    ∧ (∀ (g : Result) (a : String → Option Result) (i : Int) (tmp : Result),
        odGet g.rels i = none → a (relation_query i) = some tmp →
        g.get_relation a i true
          = (match odGet (g.expand tmp).rels i with
             | some r => .ok r
             | none => .error
                 (.dataIncomplete "Unable to resolve requested reference"),
             g.expand tmp, [relation_query i])) := by
  refine ⟨?_, ?_, ?_, ?_, ?_, ?_, ?_, ?_, ?_⟩
  · intro g a i n h rm
    simp [Result.get_node, h]
  · intro g a i h
    simp [Result.get_node, h]
  · intro g a i tmp h ha
    cases hg : odGet (g.expand tmp).nodes i <;>
      simp [Result.get_node, h, ha, hg]
  · intro g a i w h rm
    simp [Result.get_way, h]
  · intro g a i h
    simp [Result.get_way, h]
  · intro g a i tmp h ha
    cases hg : odGet (g.expand tmp).ways i <;>
      simp [Result.get_way, h, ha, hg]
  · intro g a i r h rm
    simp [Result.get_relation, h]
  · intro g a i h
    simp [Result.get_relation, h]
  · intro g a i tmp h ha
    cases hg : odGet (g.expand tmp).rels i <;>
      simp [Result.get_relation, h, ha, hg]

def wayW : Way := ⟨some 7, [1, 2], [], []⟩

def relR : Relation := ⟨some 9, [], [], []⟩

def gWR : Result := Result.ofElements [.way wayW, .rel relR]

def apiAB : String → Option Result := fun _ => some gAB

def apiWR : String → Option Result := fun _ => some gWR

theorem c4_witness :
    gA.get_node apiAB 1 false = (.ok nodeA, gA, [])
    ∧ gA.get_node apiAB 2 false
        = (.error (.dataIncomplete "Resolve missing nodes is disabled"), gA, [])
    ∧ gA.get_node apiAB 2 true = (.ok nodeB, gA.expand gAB, [node_query 2])
    ∧ gWR.get_way apiWR 7 false = (.ok wayW, gWR, [])
    ∧ gA.get_way apiWR 7 false
        = (.error (.dataIncomplete "Resolve missing way is disabled"), gA, [])
    ∧ gA.get_way apiWR 7 true = (.ok wayW, gA.expand gWR, [way_query 7])
    ∧ gWR.get_relation apiWR 9 false = (.ok relR, gWR, [])
    ∧ gA.get_relation apiWR 9 false
        = (.error (.dataIncomplete "Resolve missing relations is disabled"),
            gA, [])
    ∧ gA.get_relation apiWR 9 true
        = (.ok relR, gA.expand gWR, [relation_query 9]) :=
  ⟨c4_lazy_resolution.1 gA apiAB 1 nodeA (by decide) false,
   c4_lazy_resolution.2.1 gA apiAB 2 (by decide),
   c4_lazy_resolution.2.2.1 gA apiAB 2 gAB (by decide) rfl,
   c4_lazy_resolution.2.2.2.1 gWR apiWR 7 wayW (by decide) false,
   c4_lazy_resolution.2.2.2.2.1 gA apiWR 7 (by decide),
   c4_lazy_resolution.2.2.2.2.2.1 gA apiWR 7 gWR (by decide) rfl,
   c4_lazy_resolution.2.2.2.2.2.2.1 gWR apiWR 9 relR (by decide) false,
   c4_lazy_resolution.2.2.2.2.2.2.2.1 gA apiWR 9 (by decide),
   c4_lazy_resolution.2.2.2.2.2.2.2.2 gA apiWR 9 gWR (by decide) rfl⟩

/- ### Batch node resolution of a way (C3) -/

theorem expand_node_lookup_preserved (g tmp : Result) (i : Int) (n : Node)
    (h : odGet g.nodes i = some n) : odGet (g.expand tmp).nodes i = some n := by
  have hh : odHas g.nodes i = true := by
    unfold odHas
    rw [h]
    rfl
  have : (g.expand tmp).nodes = expandColl (fun n => n.id) g.nodes tmp.nodes :=
    rfl
  rw [this, expandColl_get_of_has _ tmp.nodes g.nodes i hh]
  exact h

theorem missing_after_expand_missing_before (g tmp : Result) (j : Int)
    (h : odGet (g.expand tmp).nodes j = none) : odGet g.nodes j = none := by
  cases hg : odGet g.nodes j with
  | none => rfl
  | some n =>
    rw [expand_node_lookup_preserved g tmp j n hg] at h
    cases h

/-- After the batch query has been issued (`resolved = true`), the loop
issues no further query, and any still-missing id is fatal. -/
theorem wayLoop_resolved (a : String → Option Result) (wq : String) :
    ∀ (ids : List Int) (g : Result) (acc : List Node) (qs : List String),
      (wayGetNodesLoop a wq ids g true true acc qs).2.2 = qs.reverse
      ∧ ((∃ j ∈ ids, odGet g.nodes j = none) →
          (wayGetNodesLoop a wq ids g true true acc qs).1
            = .error (.dataIncomplete "Unable to resolve all nodes")) := by
  intro ids
  induction ids with
  | nil =>
    intro g acc qs
    exact ⟨rfl, fun h => absurd h (by simp)⟩
  | cons i rest ih =>
    intro g acc qs
    cases hget : odGet g.nodes i with
    | some n =>
      constructor
      · simpa [wayGetNodesLoop, hget] using (ih g (n :: acc) qs).1
      · rintro ⟨j, hj, hmiss⟩
        have hjr : j ∈ rest := by
          rcases List.mem_cons.mp hj with he | ht
          · subst he
            rw [hget] at hmiss
            cases hmiss
          · exact ht
        simpa [wayGetNodesLoop, hget] using (ih g (n :: acc) qs).2 ⟨j, hjr, hmiss⟩
    | none =>
      constructor <;> simp [wayGetNodesLoop, hget]

/-- Before any query has been issued, the first missing id triggers exactly
one batch query; afterwards any id still missing from the expanded graph
is fatal. -/
theorem wayLoop_fresh (a : String → Option Result) (wq : String) (tmp : Result)
    (hapi : a wq = some tmp) :
    ∀ (ids : List Int) (g : Result) (acc : List Node) (qs : List String),
      (∃ i ∈ ids, odGet g.nodes i = none) →
      (wayGetNodesLoop a wq ids g true false acc qs).2.2 = (wq :: qs).reverse
      ∧ ((∃ j ∈ ids, odGet (g.expand tmp).nodes j = none) →
          (wayGetNodesLoop a wq ids g true false acc qs).1
            = .error (.dataIncomplete "Unable to resolve all nodes")) := by
  intro ids
  induction ids with
  | nil =>
    intro g acc qs h
    exact absurd h (by simp)
  | cons i rest ih =>
    intro g acc qs hmissing
    cases hget : odGet g.nodes i with
    | some n =>
      have hrest : ∃ x ∈ rest, odGet g.nodes x = none := by
        obtain ⟨x, hx, hxm⟩ := hmissing
        rcases List.mem_cons.mp hx with he | ht
        · subst he
          rw [hget] at hxm
          cases hxm
        · exact ⟨x, ht, hxm⟩
      constructor
      · simpa [wayGetNodesLoop, hget] using (ih g (n :: acc) qs hrest).1
      · rintro ⟨j, hj, hjm⟩
        have hjr : j ∈ rest := by
          rcases List.mem_cons.mp hj with he | ht
          · subst he
            have := missing_after_expand_missing_before g tmp j hjm
            rw [hget] at this
            cases this
          · exact ht
        simpa [wayGetNodesLoop, hget] using
          (ih g (n :: acc) qs hrest).2 ⟨j, hjr, hjm⟩
    | none =>
      cases hg2 : odGet (g.expand tmp).nodes i with
      | some n2 =>
        constructor
        · simpa [wayGetNodesLoop, hget, hapi, hg2] using
            (wayLoop_resolved a wq rest (g.expand tmp) (n2 :: acc) (wq :: qs)).1
        · rintro ⟨j, hj, hjm⟩
          have hjr : j ∈ rest := by
            rcases List.mem_cons.mp hj with he | ht
            · subst he
              rw [hg2] at hjm
              cases hjm
            · exact ht
          simpa [wayGetNodesLoop, hget, hapi, hg2] using
            (wayLoop_resolved a wq rest (g.expand tmp) (n2 :: acc)
              (wq :: qs)).2 ⟨j, hjr, hjm⟩
      | none =>
        constructor <;> simp [wayGetNodesLoop, hget, hapi, hg2]

/-- **C3 (amended)** — for a way with at least one node id missing from its
owning graph, `get_nodes` with resolution on issues exactly one batch
query for the whole way, whose text is the synthesized
`[out:json]; way(<id>); node(w); out body;` program (newline-separated
statements, with the `[out:json]` output directive the code prepends);
after merging the batch result any id still missing raises
`DataIncomplete`. -/
theorem c3_way_batch_single_query (w : Way) (g : Result)
    (a : String → Option Result) (tmp : Result)
    (hapi : a (way_nodes_query w.id) = some tmp)
    (hmiss : ∃ i ∈ w.node_ids, odGet g.nodes i = none) :
    (w.get_nodes g a true).2.2 = [way_nodes_query w.id]
    ∧ way_nodes_query w.id
        = "\n[out:json];\nway(" ++ pyFormatId w.id ++ ");\nnode(w);\nout body;\n"
    ∧ ((∃ j ∈ w.node_ids, odGet (g.expand tmp).nodes j = none) →
        (w.get_nodes g a true).1
          = .error (.dataIncomplete "Unable to resolve all nodes")) := by
  have h := wayLoop_fresh a (way_nodes_query w.id) tmp hapi w.node_ids g [] []
    hmiss
  exact ⟨h.1, rfl, h.2⟩

def wayC3 : Way := ⟨some 5, [1, 2], [], []⟩

def apiA : String → Option Result := fun _ => some gA

theorem c3_witness :
    (wayC3.get_nodes Result.empty apiA true).2.2 = [way_nodes_query (some 5)]
    ∧ (wayC3.get_nodes Result.empty apiA true).1
        = .error (.dataIncomplete "Unable to resolve all nodes") := by
  have h := c3_way_batch_single_query wayC3 Result.empty apiA gA rfl
    ⟨1, by decide, by decide⟩
  exact ⟨h.1, h.2.2 ⟨2, by decide, by decide⟩⟩

/-- **C3 (counterexample)** — the claim's "exact minimal shape"
`way(<id>); node(w); out body;` omits the `[out:json];` directive the
code puts first: even after whitespace normalisation the issued batch
query is not the claimed text. -/
theorem c3_counterexample :
    (wayC3.get_nodes Result.empty apiA true).2.2 = [way_nodes_query (some 5)]
    ∧ normalizeWs (way_nodes_query (some 5))
        = "[out:json]; way(5); node(w); out body;"
    ∧ "[out:json]; way(5); node(w); out body;" ≠ "way(5); node(w); out body;" := by
  refine ⟨by decide, by decide, by decide⟩

/- ### Transport step lemmas -/

theorem serverLoop_400 (q : String) (tr : Nat → Attempt)
    (idx maxTries attempt f : Nat) (sawNet : Bool) (lastCode : Option Nat)
    (ct : Option String) (body : String) (h : tr idx = .resp 400 ct body) :
    serverLoop q tr idx maxTries attempt (f + 1) sawNet lastCode
      = ⟨some (.error (.badQuery (extractMsgs body) q)), idx + 1, [],
          sawNet, some 400⟩ := by
  simp [serverLoop, h]

theorem serverLoop_200 (q : String) (tr : Nat → Attempt)
    (idx maxTries attempt f : Nat) (sawNet : Bool) (lastCode : Option Nat)
    (ct : Option String) (body : String) (h : tr idx = .resp 200 ct body) :
    serverLoop q tr idx maxTries attempt (f + 1) sawNet lastCode
      = ⟨some (dispatch200 ct body), idx + 1, [], sawNet, some 200⟩ := by
  simp [serverLoop, h]

theorem serverLoop_429_retry (q : String) (tr : Nat → Attempt)
    (idx maxTries attempt f : Nat) (sawNet : Bool) (lastCode : Option Nat)
    (ct : Option String) (body : String) (h : tr idx = .resp 429 ct body)
    (hlt : attempt + 1 < maxTries) :
    serverLoop q tr idx maxTries attempt (f + 1) sawNet lastCode
      = { serverLoop q tr (idx + 1) maxTries (attempt + 1) f sawNet (some 429)
            with
          sleeps := max 2 (backoff attempt)
            :: (serverLoop q tr (idx + 1) maxTries (attempt + 1) f sawNet
                (some 429)).sleeps } := by
  simp only [serverLoop, h]
  rw [if_neg (by decide : ¬((429:Nat) = 200)), if_neg (by decide : ¬((429:Nat) = 400)),
    if_pos trivial, if_neg (by omega : ¬(attempt + 1 ≥ maxTries))]

theorem serverLoop_429_exhaust (q : String) (tr : Nat → Attempt)
    (idx maxTries attempt f : Nat) (sawNet : Bool) (lastCode : Option Nat)
    (ct : Option String) (body : String) (h : tr idx = .resp 429 ct body)
    (hge : attempt + 1 ≥ maxTries) :
    serverLoop q tr idx maxTries attempt (f + 1) sawNet lastCode
      = ⟨some (.error .tooManyRequests), idx + 1, [max 2 (backoff attempt)],
          sawNet, some 429⟩ := by
  simp only [serverLoop, h]
  rw [if_neg (by decide : ¬((429:Nat) = 200)), if_neg (by decide : ¬((429:Nat) = 400)),
    if_pos trivial, if_pos (by omega : attempt + 1 ≥ maxTries)]

theorem serversLoop_succ_some (q : String) (tr : Nat → Attempt)
    (n idx maxTries : Nat) (sawNet : Bool) (lastCode : Option Nat)
    (r : Except QErr (Fmt × String)) (idx2 : Nat) (sl : List ℚ) (sn : Bool)
    (lc : Option Nat)
    (h : serverLoop q tr idx maxTries 0 maxTries sawNet lastCode
      = ⟨some r, idx2, sl, sn, lc⟩) :
    serversLoop q tr (n + 1) idx maxTries sawNet lastCode = ⟨r, idx2, sl⟩ := by
  simp [serversLoop, h]

/- ### C1 — content-type dispatch on 200 -/

/-- **C1** — an invocation whose first attempt gets HTTP 200 returns after
that one attempt with the dispatch of the body on the content type; the
dispatch decodes as JSON when the normalized content type names the JSON
media type, as XML when it names one of the three recognized XML media
types, and otherwise sniffs the first non-whitespace body byte (`{` JSON,
`<` XML) before failing with `UnknownContentType` carrying the
content-type value.  (`parse_json`/`parse_xml` bodies are not in the
sources; modelled from the spec as the JSON/XML wire-codec decoders.) -/
theorem c1_content_type_dispatch :
    (∀ (q : String) (tr : Nat → Attempt) (n m : Nat) (ct : Option String)
        (body : String), 1 ≤ n → tr 0 = .resp 200 ct body →
        overpassQuery q tr n m = ⟨dispatch200 ct body, 1, []⟩)
    ∧ (∀ (ct : Option String) (body : String),
        normCT (ct.getD "") = "application/json" →
        dispatch200 ct body = .ok (.json, body))
    ∧ (∀ (ct : Option String) (body : String),
        (normCT (ct.getD "") = "application/osm3s+xml"
          ∨ normCT (ct.getD "") = "application/xml"
          ∨ normCT (ct.getD "") = "text/xml") →
        dispatch200 ct body = .ok (.xml, body))
    ∧ (∀ (ct : Option String) (body : String),
        normCT (ct.getD "") ≠ "application/json" →
        ¬(normCT (ct.getD "") = "application/osm3s+xml"
          ∨ normCT (ct.getD "") = "application/xml"
          ∨ normCT (ct.getD "") = "text/xml") →
        (firstNonWsByte body = some '\x7b' → dispatch200 ct body = .ok (.json, body))
        ∧ (firstNonWsByte body = some '<' → dispatch200 ct body = .ok (.xml, body))
        ∧ ((∀ b, firstNonWsByte body = some b → b ≠ '\x7b' ∧ b ≠ '<') →
            dispatch200 ct body
              = .error (.unknownContentType (ct.getD "")))) := by
  refine ⟨?_, ?_, ?_, ?_⟩
  · intro q tr n m ct body hn h
    obtain ⟨k, rfl⟩ : ∃ k, n = k + 1 := ⟨n - 1, by omega⟩
    obtain ⟨f, hf⟩ : ∃ f, max 1 m = f + 1 := ⟨max 1 m - 1, by omega⟩
    unfold overpassQuery
    rw [serversLoop_succ_some q tr k 0 (max 1 m) false none
      (dispatch200 ct body) 1 [] false (some 200)
      (by
        have hs := serverLoop_200 q tr 0 (max 1 m) 0 f false none ct body h
        rw [← hf] at hs
        exact hs)]
  · intro ct body h
    simp [dispatch200, h]
  · intro ct body h
    have hj : normCT (ct.getD "") ≠ "application/json" := by
      rcases h with h | h | h <;> (rw [h]; decide)
    rcases h with h | h | h <;> simp [dispatch200, h, hj]
  · intro ct body hj hx
    refine ⟨?_, ?_, ?_⟩
    · intro hb
      simp [dispatch200, hj, hx, hb]
    · intro hb
      have hne : ('<' : Char) ≠ '\x7b' := by decide
      simp [dispatch200, hj, hx, hb, hne]
    · intro hb
      unfold dispatch200
      rw [if_neg hj, if_neg hx]
      cases hfb : firstNonWsByte body with
      | none => rfl
      | some b =>
        obtain ⟨h1, h2⟩ := hb b hfb
        simp [h1, h2]

def trJson : Nat → Attempt :=
  fun _ => .resp 200 (some "Application/JSON; charset=utf-8") "x"

theorem c1_witness :
    overpassQuery "q" trJson 4 3
        = ⟨dispatch200 (some "Application/JSON; charset=utf-8") "x", 1, []⟩
    ∧ dispatch200 (some "Application/JSON; charset=utf-8") "x"
        = .ok (.json, "x")
    ∧ dispatch200 (some "text/xml") "x" = .ok (.xml, "x")
    ∧ dispatch200 (some "text/plain") " \x7b\x7d" = .ok (.json, " \x7b\x7d")
    ∧ dispatch200 (some "text/plain") "<osm/>" = .ok (.xml, "<osm/>")
    ∧ dispatch200 (some "text/plain") "plain"
        = .error (.unknownContentType "text/plain")
    ∧ dispatch200 none "plain" = .error (.unknownContentType "") :=
  ⟨c1_content_type_dispatch.1 "q" trJson 4 3 _ "x" (by omega) rfl,
   c1_content_type_dispatch.2.1 _ "x" (by decide),
   c1_content_type_dispatch.2.2.1 _ "x" (by decide),
   (c1_content_type_dispatch.2.2.2 _ " \x7b\x7d" (by decide) (by decide)).1
     (by decide),
   (c1_content_type_dispatch.2.2.2 _ "<osm/>" (by decide) (by decide)).2.1
     (by decide),
   (c1_content_type_dispatch.2.2.2 _ "plain" (by decide) (by decide)).2.2
     (by decide),
   (c1_content_type_dispatch.2.2.2 none "plain" (by decide) (by decide)).2.2
     (by decide)⟩

/- ### C7 — immediate failure on 400 -/

/-- **C7** — any attempt that receives HTTP 400 terminates the whole call
at once (no retry on the same endpoint, no further endpoint, no sleep)
with `BadQuery` carrying the message strings extracted from the HTML body
together with the original query text. -/
theorem c7_bad_query :
    (∀ (q : String) (tr : Nat → Attempt) (idx maxTries attempt f : Nat)
        (sawNet : Bool) (lastCode : Option Nat) (ct : Option String)
        (body : String), tr idx = .resp 400 ct body →
        serverLoop q tr idx maxTries attempt (f + 1) sawNet lastCode
          = ⟨some (.error (.badQuery (extractMsgs body) q)), idx + 1, [],
              sawNet, some 400⟩)
    ∧ (∀ (q : String) (tr : Nat → Attempt) (n m : Nat) (ct : Option String)
        (body : String), 1 ≤ n → tr 0 = .resp 400 ct body →
        overpassQuery q tr n m
          = ⟨.error (.badQuery (extractMsgs body) q), 1, []⟩) := by
  constructor
  · exact serverLoop_400
  · intro q tr n m ct body hn h
    obtain ⟨k, rfl⟩ : ∃ k, n = k + 1 := ⟨n - 1, by omega⟩
    obtain ⟨f, hf⟩ : ∃ f, max 1 m = f + 1 := ⟨max 1 m - 1, by omega⟩
    unfold overpassQuery
    rw [serversLoop_succ_some q tr k 0 (max 1 m) false none
      (.error (.badQuery (extractMsgs body) q)) 1 [] false (some 400)
      (by
        have hs := serverLoop_400 q tr 0 (max 1 m) 0 f false none ct body h
        rw [← hf] at hs
        exact hs)]

def body400 : String :=
  "<p><strong style=\"color:#FF0000\">Error A</strong></p>\n<p><strong style=\"color:#FF0000\">Error B</strong></p>\n"

def tr400 : Nat → Attempt := fun _ => .resp 400 none body400

theorem c7_witness :
    extractMsgs body400 = ["Error A", "Error B"]
    ∧ overpassQuery "my query" tr400 4 3
        = ⟨.error (.badQuery ["Error A", "Error B"] "my query"), 1, []⟩ := by
  have he : extractMsgs body400 = ["Error A", "Error B"] := by decide
  refine ⟨he, ?_⟩
  have h := c7_bad_query.2 "my query" tr400 4 3 none body400 (by omega) rfl
  rwa [he] at h

/- ### C8 — rate limiting: backoff, retry on same endpoint -/

def trC8 : Nat → Attempt := fun k =>
  if k = 0 then .resp 429 none ""
  else if k = 1 then .resp 429 none ""
  else .resp 200 (some "application/json") "ok"

/-- **C8** — a 429 response sleeps `max(2, 1.25 * (attempt + 1))` (floor
delay 2, base delay times attempt number) and retries on the same
endpoint (the same per-server loop continues with the next attempt);
when the attempt budget is exhausted it fails terminally with
`TooManyRequests` after the sleep, without advancing to the next
endpoint; the sleep sequence is strictly increasing in the attempt
number; and with a transport answering 429, 429, then 200 JSON under
`max_tries = 3`, the query succeeds on the third attempt with sleeps
2 then 5/2. -/
theorem c8_too_many_requests_backoff :
    (∀ (q : String) (tr : Nat → Attempt) (idx maxTries attempt f : Nat)
        (sawNet : Bool) (lastCode : Option Nat) (ct : Option String)
        (body : String), tr idx = .resp 429 ct body →
        attempt + 1 < maxTries →
        serverLoop q tr idx maxTries attempt (f + 1) sawNet lastCode
          = { serverLoop q tr (idx + 1) maxTries (attempt + 1) f sawNet
                (some 429) with
              sleeps := max 2 (backoff attempt)
                :: (serverLoop q tr (idx + 1) maxTries (attempt + 1) f sawNet
                    (some 429)).sleeps })
    ∧ (∀ (q : String) (tr : Nat → Attempt) (idx maxTries attempt f : Nat)
        (sawNet : Bool) (lastCode : Option Nat) (ct : Option String)
        (body : String), tr idx = .resp 429 ct body →
        attempt + 1 ≥ maxTries →
        serverLoop q tr idx maxTries attempt (f + 1) sawNet lastCode
          = ⟨some (.error .tooManyRequests), idx + 1,
              [max 2 (backoff attempt)], sawNet, some 429⟩)
    ∧ (∀ a : Nat, backoff a = (5 / 4 : ℚ) * (a + 1))
    ∧ (∀ a : Nat, max 2 (backoff a) < max 2 (backoff (a + 1)))
    ∧ (overpassQuery "q" trC8 1 3).result = .ok (.json, "ok")
    ∧ (overpassQuery "q" trC8 1 3).consumed = 3
    ∧ (overpassQuery "q" trC8 1 3).sleeps = [2, 5 / 2]
    ∧ (2 : ℚ) < 5 / 2 := by
  refine ⟨serverLoop_429_retry, serverLoop_429_exhaust, fun a => rfl, ?_, ?_,
    by decide, ?_, by norm_num⟩
  · intro a
    have ha : (0 : ℚ) ≤ (a : ℚ) := Nat.cast_nonneg a
    have h1 : backoff a < backoff (a + 1) := by
      unfold backoff
      push_cast
      nlinarith
    have h2 : (5 / 2 : ℚ) ≤ backoff (a + 1) := by
      unfold backoff
      push_cast
      nlinarith
    apply max_lt
    · calc (2 : ℚ) < 5 / 2 := by norm_num
        _ ≤ backoff (a + 1) := h2
        _ ≤ max 2 (backoff (a + 1)) := le_max_right _ _
    · calc backoff a < backoff (a + 1) := h1
        _ ≤ max 2 (backoff (a + 1)) := le_max_right _ _
  · decide
  · show (serversLoop "q" trC8 1 0 (max 1 3) false none).sleeps = [2, 5 / 2]
    norm_num [serversLoop, serverLoop, trC8, dispatch200, backoff, max_def]

def tr429 : Nat → Attempt := fun _ => .resp 429 none ""

theorem c8_witness :
    serverLoop "q" tr429 0 3 0 3 false none
      = { serverLoop "q" tr429 1 3 1 2 false (some 429) with
          sleeps := max 2 (backoff 0)
            :: (serverLoop "q" tr429 1 3 1 2 false (some 429)).sleeps }
    ∧ serverLoop "q" tr429 0 1 0 1 false none
      = ⟨some (.error .tooManyRequests), 1, [max 2 (backoff 0)], false,
          some 429⟩
    ∧ max 2 (backoff 0) < max 2 (backoff 1) :=
  ⟨c8_too_many_requests_backoff.1 "q" tr429 0 3 0 2 false none none "" rfl
     (by omega),
   c8_too_many_requests_backoff.2.1 "q" tr429 0 1 0 0 false none none "" rfl
     (by omega),
   c8_too_many_requests_backoff.2.2.2.1 0⟩

/- ### JSON decode path (C5)

`Overpass.parse_json` is absent from the sources; per the specification it
decodes the body with the JSON codec so that numeric fields reach
`Node.from_json` as arbitrary-precision decimals parsed from the
transmitted text (`parse_float=Decimal`), and malformed numeric text is
fatal at the JSON layer for the whole batch. -/

/-- A decoded JSON value as `Node.from_json` sees it (restricted to the
value shapes OSM payloads use). -/
inductive JVal where
  | str (s : String)
  | int (i : Int)
  | num (d : Dec)
  | obj (t : List (String × String))
deriving Repr, DecidableEq

/-- Modelled from the spec: the number decoding of the absent
`Overpass.parse_json` (`parse_float=Decimal`): numeric text parses as an
exact `Decimal`, and malformed numeric text aborts the decode. -/
def jsonLoadsNumber (s : String) : Option Dec := parseDecimal s

/-- `Node.from_json` over the decoded record.  The auxiliary `attributes`
pass-through carries raw JSON values in Python; those are outside the
coordinate claims and left empty here. -/
def Node.from_json (data : List (String × JVal)) : Except DErr Node :=
  match odGet data "type" with
  | some (.str t) =>
    if t = "node" then
      .ok ⟨(match odGet data "id" with
            | some (.int i) => some i
            | _ => none),
           (match odGet data "lat" with
            | some (.num d) => some d
            | _ => none),
           (match odGet data "lon" with
            | some (.num d) => some d
            | _ => none),
           (match odGet data "tags" with
            | some (.obj ts) => ts.map (fun p => (p.1, some p.2))
            | _ => []),
           []⟩
    else .error (.wrongType "node" t)
  | _ => .error (.wrongType "node" "")

/- ### C5 helper lemmas -/

theorem nodeFromXml_ok_lat {x : Xml} {n : Node} (h : Node.from_xml x = .ok n) :
    (match odGet x.attrib "lat" with
     | some t => ∃ d, parseDecimal t = some d ∧ n.lat = some d
     | none => n.lat = none)
    ∧ (match odGet x.attrib "lon" with
       | some t => ∃ d, parseDecimal t = some d ∧ n.lon = some d
       | none => n.lon = none) := by
  unfold Node.from_xml at h
  by_cases htag : x.tag.pyLower ≠ "node"
  · rw [if_pos htag] at h
    cases h
  · rw [if_neg htag] at h
    cases htags : parseTags x.children with
    | error e => rw [htags] at h; cases h
    | ok tags =>
      rw [htags] at h
      cases hid : attrIntOpt x.attrib "id" with
      | error e => rw [hid] at h; cases h
      | ok nid =>
        rw [hid] at h
        cases hlat : attrDecOpt x.attrib "lat" with
        | error e => rw [hlat] at h; cases h
        | ok lat =>
          rw [hlat] at h
          cases hlon : attrDecOpt x.attrib "lon" with
          | error e => rw [hlon] at h; cases h
          | ok lon =>
            rw [hlon] at h
            simp only [Except.ok.injEq] at h
            subst h
            unfold attrDecOpt at hlat hlon
            constructor
            · cases hga : odGet x.attrib "lat" with
              | none =>
                rw [hga] at hlat
                simp only [Except.ok.injEq] at hlat
                simp [← hlat]
              | some t =>
                rw [hga] at hlat
                simp only at hlat
                cases hpd : parseDecimal t with
                | none =>
                  rw [hpd] at hlat
                  simp at hlat
                | some d =>
                  rw [hpd] at hlat
                  simp only [Except.ok.injEq] at hlat
                  exact ⟨d, hpd, by simp [← hlat]⟩
            · cases hga : odGet x.attrib "lon" with
              | none =>
                rw [hga] at hlon
                simp only [Except.ok.injEq] at hlon
                simp [← hlon]
              | some t =>
                rw [hga] at hlon
                simp only at hlon
                cases hpd : parseDecimal t with
                | none =>
                  rw [hpd] at hlon
                  simp at hlon
                | some d =>
                  rw [hpd] at hlon
                  simp only [Except.ok.injEq] at hlon
                  exact ⟨d, hpd, by simp [← hlon]⟩

theorem nodeFromXml_lat_malformed {x : Xml} {t : String}
    (hga : odGet x.attrib "lat" = some t) (hpd : parseDecimal t = none) :
    ∃ e, Node.from_xml x = .error e := by
  unfold Node.from_xml
  by_cases htag : x.tag.pyLower ≠ "node"
  · exact ⟨_, by rw [if_pos htag]⟩
  · rw [if_neg htag]
    cases htags : parseTags x.children with
    | error e => exact ⟨e, rfl⟩
    | ok tags =>
      cases hid : attrIntOpt x.attrib "id" with
      | error e => exact ⟨e, rfl⟩
      | ok nid =>
        have hlat : attrDecOpt x.attrib "lat" = .error .badNumber := by
          simp [attrDecOpt, hga, hpd]
        rw [hlat]
        exact ⟨.badNumber, rfl⟩

theorem appendPass_error_of_bad (k : Kind) :
    ∀ (cs : List Xml) (g : Result),
      (∃ c ∈ cs, c.tag.pyLower = k.typeValue ∧ ∃ e, elemFromXml k c = .error e) →
      ∃ e, appendPass k cs g = .error e := by
  intro cs
  induction cs with
  | nil =>
    intro g h
    obtain ⟨c, hc, -⟩ := h
    cases hc
  | cons d rest ih =>
    intro g h
    obtain ⟨c, hc, htag, e, he⟩ := h
    by_cases hd : d.tag.pyLower = k.typeValue
    · cases hml : elemFromXml k d with
      | error e2 => exact ⟨e2, by simp [appendPass, hd, hml]⟩
      | ok el =>
        rcases List.mem_cons.mp hc with rfl | hcr
        · rw [hml] at he
          cases he
        · have := ih (g.append el) ⟨c, hcr, htag, e, he⟩
          simpa [appendPass, hd, hml] using this
    · rcases List.mem_cons.mp hc with rfl | hcr
      · exact absurd htag hd
      · have := ih g ⟨c, hcr, htag, e, he⟩
        simpa [appendPass, hd] using this

/-- **C5** — coordinate text decodes to arbitrary-precision decimals with
the exact rational value of the transmitted digits (no binary floating
point) on both wire paths: `Decimal(text)` returns the exact value of an
integer-dot-fraction numeral; a successfully decoded XML node carries
`lat`/`lon` exactly as `Decimal` parsed them from the attribute text;
malformed coordinate text aborts the decode of the element and with it
the whole batch (`Result.from_xml`); on the JSON path the decoded node
carries exactly the `Decimal` the JSON number lexer produced, and that
lexer is `Decimal` on the transmitted text. -/
theorem c5_decimal_precision :
    (∀ (d1 d2 : List Char), d1 ≠ [] → (∀ c ∈ d1, isDig c = true) →
        (∀ c ∈ d2, isDig c = true) →
        parseDecimal (String.mk (d1 ++ '.' :: d2))
            = some ⟨(digitsVal (d1 ++ d2) : Int), -(d2.length : Int)⟩
        ∧ Dec.toRat ⟨(digitsVal (d1 ++ d2) : Int), -(d2.length : Int)⟩
            = refInt d1 + refFrac d2)
    ∧ (∀ (x : Xml) (n : Node), Node.from_xml x = .ok n →
        (match odGet x.attrib "lat" with
         | some t => ∃ d, parseDecimal t = some d ∧ n.lat = some d
         | none => n.lat = none)
        ∧ (match odGet x.attrib "lon" with
           | some t => ∃ d, parseDecimal t = some d ∧ n.lon = some d
           | none => n.lon = none))
    ∧ (∀ (x : Xml) (t : String), odGet x.attrib "lat" = some t →
        parseDecimal t = none → ∃ e, Node.from_xml x = .error e)
    ∧ (∀ (root c : Xml) (t : String), c ∈ root.children →
        c.tag.pyLower = "node" → odGet c.attrib "lat" = some t →
        parseDecimal t = none → ∃ e, Result.from_xml_full root = .error e)
    ∧ (∀ (data : List (String × JVal)) (n : Node) (d : Dec),
        Node.from_json data = .ok n → odGet data "lat" = some (.num d) →
        n.lat = some d)
    ∧ (∀ s : String, jsonLoadsNumber s = parseDecimal s) := by
  refine ⟨parseDecimal_exact, fun x n h => nodeFromXml_ok_lat h, ?_, ?_, ?_,
    fun s => rfl⟩
  · intro x t hga hpd
    exact nodeFromXml_lat_malformed hga hpd
  · intro root c t hc htag hga hpd
    obtain ⟨e0, he0⟩ := nodeFromXml_lat_malformed hga hpd
    have hbad : ∃ e, elemFromXml Kind.node c = .error e :=
      ⟨e0, by simp [elemFromXml, he0, Except.map]⟩
    obtain ⟨e1, he1⟩ := appendPass_error_of_bad Kind.node root.children
      Result.empty ⟨c, hc, htag, hbad⟩
    exact ⟨e1, by simp [Result.from_xml_full, he1]⟩
  · intro data n d h hga
    unfold Node.from_json at h
    cases hty : odGet data "type" with
    | none => rw [hty] at h; simp at h
    | some v =>
      rw [hty] at h
      cases v with
      | str t2 =>
        simp only at h
        by_cases ht2 : t2 = "node"
        · rw [if_pos ht2] at h
          simp only [Except.ok.injEq] at h
          subst h
          simp [hga]
        · rw [if_neg ht2] at h
          simp at h
      | int i => simp at h
      | num d2 => simp at h
      | obj o => simp at h

theorem c5_witness :
    parseDecimal "51.123456789" = some ⟨51123456789, -9⟩
    ∧ Dec.toRat ⟨51123456789, -9⟩
        = refInt ['5', '1'] + refFrac ['1', '2', '3', '4', '5', '6', '7', '8', '9']
    ∧ (∃ d, parseDecimal "50.5" = some d
        ∧ (Node.from_xml (.el "node"
            [("id", "1"), ("lat", "50.5"), ("lon", "10")] [])).map Node.lat
          = .ok (some d))
    ∧ (∃ e, Result.from_xml_full
        (.el "osm" [] [.el "node" [("id", "1"), ("lat", "bad"), ("lon", "10")] []])
          = .error e)
    ∧ Node.from_json [("type", .str "node"), ("id", .int 1),
        ("lat", .num ⟨505, -1⟩), ("lon", .num ⟨10, 0⟩)]
        = .ok ⟨some 1, some ⟨505, -1⟩, some ⟨10, 0⟩, [], []⟩ := by
  have h1 := c5_decimal_precision.1 ['5', '1']
    ['1', '2', '3', '4', '5', '6', '7', '8', '9'] (by decide) (by decide)
    (by decide)
  refine ⟨by decide, ?_, ?_, ?_, by decide⟩
  · have := h1.2
    simpa using this
  · have h2 := c5_decimal_precision.2.1
      (.el "node" [("id", "1"), ("lat", "50.5"), ("lon", "10")] [])
    have hok : Node.from_xml
        (.el "node" [("id", "1"), ("lat", "50.5"), ("lon", "10")] [])
        = .ok ⟨some 1, some ⟨505, -1⟩, some ⟨10, 0⟩, [], []⟩ := by decide
    have h3 := (h2 _ hok).1
    simp only [show odGet (Xml.el "node"
        [("id", "1"), ("lat", "50.5"), ("lon", "10")] []).attrib "lat"
        = some "50.5" from by decide] at h3
    obtain ⟨d, hd, hlat⟩ := h3
    refine ⟨d, hd, ?_⟩
    rw [hok, hlat]
    rfl
  · exact c5_decimal_precision.2.2.2.1
      (.el "osm" [] [.el "node" [("id", "1"), ("lat", "bad"), ("lon", "10")] []])
      (.el "node" [("id", "1"), ("lat", "bad"), ("lon", "10")] []) "bad"
      (by simp [Xml.children]) (by decide) (by decide) (by decide)

/- ### Strategy equivalence (C2) -/

/-- The element kind a lowercased tag selects in the streaming strategy. -/
def kindOfTag (t : String) : Option Kind :=
  if t = "node" then some .node
  else if t = "way" then some .way
  else if t = "relation" then some .relation
  else none

/-- Kind tag of a parsed element. -/
def Elem.kind : Elem → Kind
  | .node _ => .node
  | .way _ => .way
  | .rel _ => .relation

mutual
/-- Size of an XML tree (for strong induction over the nesting). -/
def Xml.sz : Xml → Nat
  | .el _ _ cs => 1 + szList cs
def szList : List Xml → Nat
  | [] => 0
  | c :: cs => Xml.sz c + szList cs
end

mutual
/-- A subtree none of whose elements triggers the streaming strategy
(no `node`/`way`/`relation`/`bounds` tag anywhere). -/
def Xml.inert : Xml → Bool
  | .el t _ cs =>
    (kindOfTag t.pyLower).isNone && !(t.pyLower == "bounds") && inertList cs
def inertList : List Xml → Bool
  | [] => true
  | c :: cs => c.inert && inertList cs
end

/-- The restricted document class of the amended claim: the root is not
itself an element or bounds tag, every direct child is a
`node`/`way`/`relation` element, and nothing deeper uses one of the
triggering tags. -/
def flatOsm (root : Xml) : Bool :=
  (kindOfTag root.tag.pyLower).isNone && !(root.tag.pyLower == "bounds")
  && root.children.all
      (fun c => (kindOfTag c.tag.pyLower).isSome && inertList c.children)

/-- The elements one whole-document pass parses, in order. -/
def kidsParse (k : Kind) : List Xml → Except DErr (List Elem)
  | [] => .ok []
  | c :: rest =>
    if c.tag.pyLower = k.typeValue then
      match elemFromXml k c with
      | .error e => .error e
      | .ok el => (kidsParse k rest).map (el :: ·)
    else kidsParse k rest

/-- The elements the streaming strategy parses from the direct children,
in document order, each under its own kind. -/
def kidsParseAll : List Xml → Except DErr (List Elem)
  | [] => .ok []
  | c :: rest =>
    match kindOfTag c.tag.pyLower with
    | none => kidsParseAll rest
    | some k =>
      match elemFromXml k c with
      | .error e => .error e
      | .ok el => (kidsParseAll rest).map (el :: ·)

/-- The action of `Result.append` on the node collection alone. -/
def nodeAction (l : List (Int × Node)) : Elem → List (Int × Node)
  | .node n =>
    match n.id with
    | some i => odSetdefault l i n
    | none => l
  | _ => l

/-- The action of `Result.append` on the way collection alone. -/
def wayAction (l : List (Int × Way)) : Elem → List (Int × Way)
  | .way w =>
    match w.id with
    | some i => odSetdefault l i w
    | none => l
  | _ => l

/-- The action of `Result.append` on the relation collection alone. -/
def relAction (l : List (Int × Relation)) : Elem → List (Int × Relation)
  | .rel r =>
    match r.id with
    | some i => odSetdefault l i r
    | none => l
  | _ => l

/-- Outcome agreement demanded of the two strategies: they fail together,
or succeed with identical element collections. -/
def sameOutcome : Except DErr Result → Except DErr Result → Prop
  | .ok g1, .ok g2 => g1.nodes = g2.nodes ∧ g1.ways = g2.ways ∧ g1.rels = g2.rels
  | .error _, .error _ => True
  | _, _ => False

theorem kindOfTag_typeValue {t : String} {k : Kind}
    (h : kindOfTag t = some k) : t = k.typeValue := by
  unfold kindOfTag at h
  by_cases h1 : t = "node"
  · rw [if_pos h1] at h
    cases h
    exact h1
  · rw [if_neg h1] at h
    by_cases h2 : t = "way"
    · rw [if_pos h2] at h
      cases h
      exact h2
    · rw [if_neg h2] at h
      by_cases h3 : t = "relation"
      · rw [if_pos h3] at h
        cases h
        exact h3
      · rw [if_neg h3] at h
        cases h

theorem kindOfTag_none_ne {t : String} (h : kindOfTag t = none) :
    t ≠ "node" ∧ t ≠ "way" ∧ t ≠ "relation" := by
  unfold kindOfTag at h
  by_cases h1 : t = "node"
  · rw [if_pos h1] at h; cases h
  · rw [if_neg h1] at h
    by_cases h2 : t = "way"
    · rw [if_pos h2] at h; cases h
    · rw [if_neg h2] at h
      by_cases h3 : t = "relation"
      · rw [if_pos h3] at h; cases h
      · exact ⟨h1, h2, h3⟩

theorem typeValue_of_kindOfTag (k : Kind) : kindOfTag k.typeValue = some k := by
  cases k <;> rfl

theorem elemFromXml_kind {k : Kind} {c : Xml} {el : Elem}
    (h : elemFromXml k c = .ok el) : el.kind = k := by
  cases k with
  | node =>
    cases hf : Node.from_xml c with
    | error e => simp [elemFromXml, hf, Except.map] at h
    | ok n =>
      simp only [elemFromXml, hf, Except.map, Except.ok.injEq] at h
      subst h
      rfl
  | way =>
    cases hf : Way.from_xml c with
    | error e => simp [elemFromXml, hf, Except.map] at h
    | ok w =>
      simp only [elemFromXml, hf, Except.map, Except.ok.injEq] at h
      subst h
      rfl
  | relation =>
    cases hf : Relation.from_xml c with
    | error e => simp [elemFromXml, hf, Except.map] at h
    | ok r =>
      simp only [elemFromXml, hf, Except.map, Except.ok.injEq] at h
      subst h
      rfl

theorem append_nodes (g : Result) (e : Elem) :
    (g.append e).nodes = nodeAction g.nodes e := by
  cases e with
  | node n => cases hid : n.id <;> simp [Result.append, nodeAction, hid]
  | way w => cases hid : w.id <;> simp [Result.append, nodeAction, hid]
  | rel r => cases hid : r.id <;> simp [Result.append, nodeAction, hid]

theorem append_ways (g : Result) (e : Elem) :
    (g.append e).ways = wayAction g.ways e := by
  cases e with
  | node n => cases hid : n.id <;> simp [Result.append, wayAction, hid]
  | way w => cases hid : w.id <;> simp [Result.append, wayAction, hid]
  | rel r => cases hid : r.id <;> simp [Result.append, wayAction, hid]

theorem append_rels (g : Result) (e : Elem) :
    (g.append e).rels = relAction g.rels e := by
  cases e with
  | node n => cases hid : n.id <;> simp [Result.append, relAction, hid]
  | way w => cases hid : w.id <;> simp [Result.append, relAction, hid]
  | rel r => cases hid : r.id <;> simp [Result.append, relAction, hid]

theorem foldl_append_nodes (els : List Elem) :
    ∀ g : Result, (els.foldl Result.append g).nodes
      = els.foldl nodeAction g.nodes := by
  induction els with
  | nil => intro g; rfl
  | cons e rest ih =>
    intro g
    simp only [List.foldl_cons]
    rw [ih (g.append e), append_nodes]

theorem foldl_append_ways (els : List Elem) :
    ∀ g : Result, (els.foldl Result.append g).ways
      = els.foldl wayAction g.ways := by
  induction els with
  | nil => intro g; rfl
  | cons e rest ih =>
    intro g
    simp only [List.foldl_cons]
    rw [ih (g.append e), append_ways]

theorem foldl_append_rels (els : List Elem) :
    ∀ g : Result, (els.foldl Result.append g).rels
      = els.foldl relAction g.rels := by
  induction els with
  | nil => intro g; rfl
  | cons e rest ih =>
    intro g
    simp only [List.foldl_cons]
    rw [ih (g.append e), append_rels]

theorem nodeAction_other {l : List (Int × Node)} {e : Elem}
    (h : e.kind ≠ .node) : nodeAction l e = l := by
  cases e with
  | node n => exact absurd rfl h
  | way w => rfl
  | rel r => rfl

theorem wayAction_other {l : List (Int × Way)} {e : Elem}
    (h : e.kind ≠ .way) : wayAction l e = l := by
  cases e with
  | node n => rfl
  | way w => exact absurd rfl h
  | rel r => rfl

theorem relAction_other {l : List (Int × Relation)} {e : Elem}
    (h : e.kind ≠ .relation) : relAction l e = l := by
  cases e with
  | node n => rfl
  | way w => rfl
  | rel r => exact absurd rfl h

theorem foldl_nodeAction_other {els : List Elem}
    (h : ∀ e ∈ els, e.kind ≠ .node) :
    ∀ l, els.foldl nodeAction l = l := by
  induction els with
  | nil => intro l; rfl
  | cons e rest ih =>
    intro l
    simp only [List.foldl_cons]
    rw [nodeAction_other (h e (by simp)), ih (fun x hx => h x (by simp [hx]))]

theorem foldl_wayAction_other {els : List Elem}
    (h : ∀ e ∈ els, e.kind ≠ .way) :
    ∀ l, els.foldl wayAction l = l := by
  induction els with
  | nil => intro l; rfl
  | cons e rest ih =>
    intro l
    simp only [List.foldl_cons]
    rw [wayAction_other (h e (by simp)), ih (fun x hx => h x (by simp [hx]))]

theorem foldl_relAction_other {els : List Elem}
    (h : ∀ e ∈ els, e.kind ≠ .relation) :
    ∀ l, els.foldl relAction l = l := by
  induction els with
  | nil => intro l; rfl
  | cons e rest ih =>
    intro l
    simp only [List.foldl_cons]
    rw [relAction_other (h e (by simp)), ih (fun x hx => h x (by simp [hx]))]

theorem foldl_nodeAction_filter (els : List Elem) :
    ∀ l, els.foldl nodeAction l
      = (els.filter (fun e => decide (e.kind = .node))).foldl nodeAction l := by
  induction els with
  | nil => intro l; rfl
  | cons e rest ih =>
    intro l
    by_cases hk : e.kind = .node
    · simp only [List.foldl_cons, List.filter_cons, hk]
      simp only [decide_eq_true_eq, eq_self_iff_true, if_true, List.foldl_cons]
      exact ih (nodeAction l e)
    · simp only [List.foldl_cons, List.filter_cons]
      rw [nodeAction_other hk]
      simp only [decide_eq_true_eq, hk, if_false]
      exact ih l

theorem foldl_wayAction_filter (els : List Elem) :
    ∀ l, els.foldl wayAction l
      = (els.filter (fun e => decide (e.kind = .way))).foldl wayAction l := by
  induction els with
  | nil => intro l; rfl
  | cons e rest ih =>
    intro l
    by_cases hk : e.kind = .way
    · simp only [List.foldl_cons, List.filter_cons, hk]
      simp only [decide_eq_true_eq, eq_self_iff_true, if_true, List.foldl_cons]
      exact ih (wayAction l e)
    · simp only [List.foldl_cons, List.filter_cons]
      rw [wayAction_other hk]
      simp only [decide_eq_true_eq, hk, if_false]
      exact ih l

theorem foldl_relAction_filter (els : List Elem) :
    ∀ l, els.foldl relAction l
      = (els.filter (fun e => decide (e.kind = .relation))).foldl relAction l := by
  induction els with
  | nil => intro l; rfl
  | cons e rest ih =>
    intro l
    by_cases hk : e.kind = .relation
    · simp only [List.foldl_cons, List.filter_cons, hk]
      simp only [decide_eq_true_eq, eq_self_iff_true, if_true, List.foldl_cons]
      exact ih (relAction l e)
    · simp only [List.foldl_cons, List.filter_cons]
      rw [relAction_other hk]
      simp only [decide_eq_true_eq, hk, if_false]
      exact ih l

theorem startEvents_def (c : Xml) :
    c.startEvents = c :: startEventsList c.children := by
  cases c
  rfl

theorem endEvents_def (c : Xml) :
    c.endEvents = endEventsList c.children ++ [c] := by
  cases c
  rfl

theorem iterStep_skip {c : Xml} (h1 : kindOfTag c.tag.pyLower = none)
    (h2 : c.tag.pyLower ≠ "bounds") (g : Result) : iterStep g c = .ok g := by
  obtain ⟨hn, hw, hr⟩ := kindOfTag_none_ne h1
  simp [iterStep, h2, hn, hw, hr]

theorem iterStep_kind {c : Xml} {k : Kind}
    (h : kindOfTag c.tag.pyLower = some k) (g : Result) :
    iterStep g c
      = (match elemFromXml k c with
         | .error e => .error e
         | .ok el => .ok (g.append el)) := by
  have ht := kindOfTag_typeValue h
  cases k with
  | node =>
    have hb : ¬(c.tag.pyLower = "bounds") := by rw [ht]; decide
    have hn : c.tag.pyLower = "node" := ht
    unfold iterStep
    rw [if_neg hb]
    dsimp only
    rw [if_pos hn]
  | way =>
    have hb : ¬(c.tag.pyLower = "bounds") := by rw [ht]; decide
    have hn : ¬(c.tag.pyLower = "node") := by rw [ht]; decide
    have hw : c.tag.pyLower = "way" := ht
    unfold iterStep
    rw [if_neg hb]
    dsimp only
    rw [if_neg hn, if_pos hw]
  | relation =>
    have hb : ¬(c.tag.pyLower = "bounds") := by rw [ht]; decide
    have hn : ¬(c.tag.pyLower = "node") := by rw [ht]; decide
    have hw : ¬(c.tag.pyLower = "way") := by rw [ht]; decide
    have hr : c.tag.pyLower = "relation" := ht
    unfold iterStep
    rw [if_neg hb]
    dsimp only
    rw [if_neg hn, if_neg hw, if_pos hr]

theorem iterFold_append (a b : List Xml) :
    ∀ g, iterFold (a ++ b) g
      = (match iterFold a g with
         | .error e => .error e
         | .ok g2 => iterFold b g2) := by
  induction a with
  | nil => intro g; rfl
  | cons c rest ih =>
    intro g
    simp only [List.cons_append, iterFold]
    cases iterStep g c with
    | error e => rfl
    | ok g2 => exact ih g2

theorem iterFold_inert :
    ∀ (n : Nat) (cs : List Xml), szList cs ≤ n → inertList cs = true →
      ∀ g, iterFold (startEventsList cs) g = .ok g := by
  intro n
  induction n using Nat.strong_induction_on with
  | _ n ih =>
    intro cs hsz hinert g
    cases cs with
    | nil => rfl
    | cons c rest =>
      obtain ⟨t, a, cc⟩ := c
      have hinert2 : (((kindOfTag (String.pyLower t)).isNone
          && !(String.pyLower t == "bounds") && inertList cc)
            && inertList rest) = true := hinert
      simp only [Bool.and_eq_true, Bool.not_eq_true', beq_eq_false_iff_ne,
        Option.isNone_iff_eq_none] at hinert2
      obtain ⟨⟨⟨hk, hb⟩, hcc⟩, hrest⟩ := hinert2
      have hse : startEventsList (Xml.el t a cc :: rest)
          = (Xml.el t a cc :: startEventsList cc) ++ startEventsList rest := by
        rfl
      rw [hse]
      simp only [iterFold, List.cons_append]
      rw [iterStep_skip
        (show kindOfTag (Xml.el t a cc).tag.pyLower = none from hk)
        (show (Xml.el t a cc).tag.pyLower ≠ "bounds" from hb) g]
      dsimp only
      show iterFold (startEventsList cc ++ startEventsList rest) g
        = Except.ok g
      rw [iterFold_append]
      have hszc : szList cc < n := by
        have : szList (Xml.el t a cc :: rest)
            = (1 + szList cc) + szList rest := rfl
        omega
      have hszr : szList rest < n := by
        have : szList (Xml.el t a cc :: rest)
            = (1 + szList cc) + szList rest := rfl
        omega
      rw [ih (szList cc) hszc cc (le_refl _) hcc g]
      exact ih (szList rest) hszr rest (le_refl _) hrest g

theorem iterFold_startEvents_flat :
    ∀ (cs : List Xml),
      (∀ c ∈ cs, (kindOfTag c.tag.pyLower).isSome = true
        ∧ inertList c.children = true) →
      ∀ g, iterFold (startEventsList cs) g = iterFold cs g := by
  intro cs
  induction cs with
  | nil => intro _ g; rfl
  | cons c rest ih =>
    intro h g
    have hse : startEventsList (c :: rest)
        = c.startEvents ++ startEventsList rest := by
      cases c
      rfl
    rw [hse, startEvents_def]
    simp only [List.cons_append, iterFold]
    cases hstep : iterStep g c with
    | error e => rfl
    | ok g2 =>
      dsimp only
      show iterFold (startEventsList c.children ++ startEventsList rest) g2
        = iterFold rest g2
      rw [iterFold_append]
      have hin : inertList c.children = true := (h c (by simp)).2
      rw [iterFold_inert (szList c.children) c.children (le_refl _) hin g2]
      exact ih (fun x hx => h x (by simp [hx])) g2

theorem iterFold_char :
    ∀ (cs : List Xml),
      (∀ c ∈ cs, (kindOfTag c.tag.pyLower).isSome = true) →
      ∀ g, iterFold cs g
        = (match kidsParseAll cs with
           | .error e => .error e
           | .ok els => .ok (els.foldl Result.append g)) := by
  intro cs
  induction cs with
  | nil => intro _ g; rfl
  | cons c rest ih =>
    intro h g
    obtain ⟨k, hk⟩ := Option.isSome_iff_exists.mp (h c (by simp))
    simp only [iterFold, kidsParseAll, hk]
    rw [iterStep_kind hk g]
    cases hel : elemFromXml k c with
    | error e => rfl
    | ok el =>
      dsimp only
      rw [ih (fun x hx => h x (by simp [hx])) (g.append el)]
      cases hrest : kidsParseAll rest with
      | error e => rfl
      | ok els => simp [Except.map, List.foldl_cons]

theorem appendPass_char (k : Kind) :
    ∀ (cs : List Xml) (g : Result),
      appendPass k cs g
        = (match kidsParse k cs with
           | .error e => .error e
           | .ok els => .ok (els.foldl Result.append g)) := by
  intro cs
  induction cs with
  | nil => intro g; rfl
  | cons c rest ih =>
    intro g
    by_cases ht : c.tag.pyLower = k.typeValue
    · simp only [appendPass, kidsParse, ht, if_true]
      cases hel : elemFromXml k c with
      | error e => rfl
      | ok el =>
        dsimp only
        rw [ih (g.append el)]
        cases hrest : kidsParse k rest with
        | error e => rfl
        | ok els => simp [Except.map, List.foldl_cons]
    · simp only [appendPass, kidsParse, ht, if_false]
      exact ih g

theorem typeValue_inj : ∀ k1 k2 : Kind, k1.typeValue = k2.typeValue → k1 = k2 := by
  intro k1 k2 h
  cases k1 <;> cases k2 <;> first | rfl | exact absurd h (by decide)

theorem mem_filter_kind {els : List Elem} {k : Kind} {e : Elem}
    (h : e ∈ els.filter (fun e => decide (e.kind = k))) : e.kind = k := by
  have := (List.mem_filter.mp h).2
  simpa using this

theorem kidsParse_of_all {cs : List Xml}
    (h : ∀ c ∈ cs, (kindOfTag c.tag.pyLower).isSome = true) :
    ∀ els, kidsParseAll cs = .ok els →
      ∀ k, kidsParse k cs = .ok (els.filter (fun e => decide (e.kind = k))) := by
  induction cs with
  | nil =>
    intro els hels k
    simp only [kidsParseAll, Except.ok.injEq] at hels
    subst hels
    rfl
  | cons c rest ih =>
    intro els hels k
    obtain ⟨kc, hkc⟩ := Option.isSome_iff_exists.mp (h c (by simp))
    simp only [kidsParseAll, hkc] at hels
    cases hel : elemFromXml kc c with
    | error e => rw [hel] at hels; cases hels
    | ok el =>
      rw [hel] at hels
      cases hrest : kidsParseAll rest with
      | error e =>
        rw [hrest] at hels
        simp [Except.map] at hels
      | ok els' =>
        rw [hrest] at hels
        simp only [Except.map, Except.ok.injEq] at hels
        subst hels
        have hkind := elemFromXml_kind hel
        have ht := kindOfTag_typeValue hkc
        have ihr := ih (fun x hx => h x (by simp [hx])) els' hrest k
        by_cases hkk : kc = k
        · subst hkk
          simp only [kidsParse, ht, if_pos rfl, hel]
          rw [ihr]
          simp [Except.map, List.filter_cons, hkind]
        · have htne : c.tag.pyLower ≠ k.typeValue := by
            rw [ht]
            intro he
            exact hkk (typeValue_inj kc k he)
          simp only [kidsParse, htne, if_false]
          rw [ihr]
          have hne : (decide (el.kind = k)) = false := by
            simp [hkind, hkk]
          simp [List.filter_cons, hne]

theorem kidsParseAll_error {cs : List Xml} {e : DErr}
    (h : kidsParseAll cs = .error e) :
    ∃ c ∈ cs, ∃ k, kindOfTag c.tag.pyLower = some k
      ∧ ∃ e2, elemFromXml k c = .error e2 := by
  induction cs with
  | nil => simp [kidsParseAll] at h
  | cons c rest ih =>
    cases hkc : kindOfTag c.tag.pyLower with
    | none =>
      simp only [kidsParseAll, hkc] at h
      obtain ⟨x, hx, k2, hk2, e2, he2⟩ := ih h
      exact ⟨x, by simp [hx], k2, hk2, e2, he2⟩
    | some kc =>
      simp only [kidsParseAll, hkc] at h
      cases hel : elemFromXml kc c with
      | error e2 => exact ⟨c, by simp, kc, hkc, e2, hel⟩
      | ok el =>
        rw [hel] at h
        cases hrest : kidsParseAll rest with
        | error e3 =>
          rw [hrest] at h
          simp only [Except.map] at h
          injection h with h4
          subst h4
          obtain ⟨x, hx, k2, hk2, e2, he2⟩ := ih hrest
          exact ⟨x, by simp [hx], k2, hk2, e2, he2⟩
        | ok els =>
          rw [hrest] at h
          simp [Except.map] at h

theorem kidsParse_error_of_bad {k : Kind} :
    ∀ (cs : List Xml) {c : Xml}, c ∈ cs → c.tag.pyLower = k.typeValue →
      ∀ {e : DErr}, elemFromXml k c = .error e →
      ∃ e2, kidsParse k cs = .error e2 := by
  intro cs
  induction cs with
  | nil => intro c hc; cases hc
  | cons d rest ih =>
    intro c hc ht e he
    rcases List.mem_cons.mp hc with rfl | hcr
    · simp only [kidsParse, ht, if_pos rfl, he]
      exact ⟨e, rfl⟩
    · by_cases hd : d.tag.pyLower = k.typeValue
      · simp only [kidsParse, hd, if_pos rfl]
        cases hel : elemFromXml k d with
        | error e2 => exact ⟨e2, rfl⟩
        | ok el =>
          obtain ⟨e2, he2⟩ := ih hcr ht he
          rw [he2]
          exact ⟨e2, by simp [Except.map]⟩
      · simp only [kidsParse, hd, if_false]
        exact ih hcr ht he

theorem from_xml_full_error {root : Xml} {k : Kind} {e : DErr}
    (h : kidsParse k root.children = .error e) :
    ∃ e2, Result.from_xml_full root = .error e2 := by
  cases hn : kidsParse .node root.children with
  | error e2 =>
    refine ⟨e2, ?_⟩
    unfold Result.from_xml_full
    rw [appendPass_char Kind.node, hn]
  | ok elsN =>
    cases hw : kidsParse .way root.children with
    | error e2 =>
      refine ⟨e2, ?_⟩
      unfold Result.from_xml_full
      rw [appendPass_char Kind.node, hn]
      dsimp only
      rw [appendPass_char Kind.way, hw]
    | ok elsW =>
      cases hr : kidsParse .relation root.children with
      | error e2 =>
        refine ⟨e2, ?_⟩
        unfold Result.from_xml_full
        rw [appendPass_char Kind.node, hn]
        dsimp only
        rw [appendPass_char Kind.way, hw]
        dsimp only
        rw [appendPass_char Kind.relation, hr]
      | ok elsR =>
        cases k with
        | node => rw [hn] at h; cases h
        | way => rw [hw] at h; cases h
        | relation => rw [hr] at h; cases h

theorem start_end_memList :
    ∀ (n : Nat) (cs : List Xml), szList cs ≤ n →
      ∀ y, (y ∈ startEventsList cs ↔ y ∈ endEventsList cs) := by
  intro n
  induction n using Nat.strong_induction_on with
  | _ n ih =>
    intro cs hsz y
    cases cs with
    | nil => rfl
    | cons c rest =>
      obtain ⟨t, a, cc⟩ := c
      have h1 : startEventsList (Xml.el t a cc :: rest)
          = (Xml.el t a cc :: startEventsList cc) ++ startEventsList rest := rfl
      have h2 : endEventsList (Xml.el t a cc :: rest)
          = (endEventsList cc ++ [Xml.el t a cc]) ++ endEventsList rest := rfl
      have hsz1 : szList cc < n := by
        have : szList (Xml.el t a cc :: rest)
            = (1 + szList cc) + szList rest := rfl
        omega
      have hsz2 : szList rest < n := by
        have : szList (Xml.el t a cc :: rest)
            = (1 + szList cc) + szList rest := rfl
        omega
      have ih1 := ih (szList cc) hsz1 cc (le_refl _) y
      have ih2 := ih (szList rest) hsz2 rest (le_refl _) y
      rw [h1, h2]
      simp only [List.mem_append, List.mem_cons, List.mem_singleton,
        List.not_mem_nil, or_false] at ih1 ih2 ⊢
      tauto

/-- **C2 (amended)** — for XML documents in which the `node`/`way`/
`relation` elements occur exactly as the direct children of a root that is
itself none of the triggering tags, and no deeper descendant carries a
`node`/`way`/`relation`/`bounds` tag, the whole-document and streaming
strategies fail together or succeed with identical node, way and relation
collections; and the elements whose `start` events the streaming consumer
processes are exactly the elements whose `end` events it clears. -/
theorem c2_parse_strategy_equivalence (root : Xml)
    (hflat : flatOsm root = true) :
    sameOutcome (Result.from_xml_full root) (Result.from_xml_iter root)
    ∧ (∀ y, y ∈ root.startEvents ↔ y ∈ root.endEvents) := by
  unfold flatOsm at hflat
  simp only [Bool.and_eq_true, Bool.not_eq_true', beq_eq_false_iff_ne,
    Option.isNone_iff_eq_none, List.all_eq_true] at hflat
  obtain ⟨⟨hk0, hb0⟩, hkids⟩ := hflat
  have hkids' : ∀ c ∈ root.children,
      (kindOfTag c.tag.pyLower).isSome = true ∧ inertList c.children = true := by
    intro c hc
    have := hkids c hc
    simpa [Bool.and_eq_true] using this
  constructor
  · have hiter : Result.from_xml_iter root
        = iterFold root.children Result.empty := by
      unfold Result.from_xml_iter
      rw [startEvents_def]
      simp only [iterFold]
      rw [iterStep_skip hk0 hb0 Result.empty]
      dsimp only
      exact iterFold_startEvents_flat root.children hkids' Result.empty
    rw [hiter,
      iterFold_char root.children (fun c hc => (hkids' c hc).1) Result.empty]
    cases hall : kidsParseAll root.children with
    | error e =>
      obtain ⟨c, hc, kc, hkc, e2, he2⟩ := kidsParseAll_error hall
      have ht := kindOfTag_typeValue hkc
      obtain ⟨e3, he3⟩ := kidsParse_error_of_bad root.children hc ht he2
      obtain ⟨e4, he4⟩ := from_xml_full_error (k := kc) he3
      rw [he4]
      exact trivial
    | ok els =>
      have hN := kidsParse_of_all (fun c hc => (hkids' c hc).1) els hall .node
      have hW := kidsParse_of_all (fun c hc => (hkids' c hc).1) els hall .way
      have hR := kidsParse_of_all (fun c hc => (hkids' c hc).1) els hall
        .relation
      have hfull : Result.from_xml_full root
          = .ok ((els.filter (fun e => decide (e.kind = .relation))).foldl
              Result.append
              ((els.filter (fun e => decide (e.kind = .way))).foldl
                Result.append
                ((els.filter (fun e => decide (e.kind = .node))).foldl
                  Result.append Result.empty))) := by
        unfold Result.from_xml_full
        rw [appendPass_char Kind.node, hN]
        dsimp only
        rw [appendPass_char Kind.way, hW]
        dsimp only
        rw [appendPass_char Kind.relation, hR]
      rw [hfull]
      refine ⟨?_, ?_, ?_⟩
      · rw [foldl_append_nodes, foldl_append_nodes, foldl_append_nodes,
          foldl_append_nodes,
          foldl_nodeAction_other (fun e he => by
            rw [mem_filter_kind he]; decide),
          foldl_nodeAction_other (fun e he => by
            rw [mem_filter_kind he]; decide)]
        exact (foldl_nodeAction_filter els Result.empty.nodes).symm
      · rw [foldl_append_ways, foldl_append_ways, foldl_append_ways,
          foldl_append_ways,
          foldl_wayAction_other (fun e he => by
            rw [mem_filter_kind he]; decide)]
        have hnn : ∀ e ∈ els.filter (fun e => decide (e.kind = Kind.node)),
            e.kind ≠ Kind.way := fun e he => by
          rw [mem_filter_kind he]; decide
        rw [foldl_wayAction_other hnn]
        exact (foldl_wayAction_filter els Result.empty.ways).symm
      · rw [foldl_append_rels, foldl_append_rels, foldl_append_rels,
          foldl_append_rels]
        have hnn : ∀ e ∈ els.filter (fun e => decide (e.kind = Kind.node)),
            e.kind ≠ Kind.relation := fun e he => by
          rw [mem_filter_kind he]; decide
        have hnw : ∀ e ∈ els.filter (fun e => decide (e.kind = Kind.way)),
            e.kind ≠ Kind.relation := fun e he => by
          rw [mem_filter_kind he]; decide
        rw [foldl_relAction_other hnw, foldl_relAction_other hnn]
        exact (foldl_relAction_filter els Result.empty.rels).symm
  · intro y
    rw [startEvents_def, endEvents_def]
    have hm := start_end_memList (szList root.children) root.children
      (le_refl _) y
    simp only [List.mem_append, List.mem_cons, List.mem_singleton,
      List.not_mem_nil, or_false] at hm ⊢
    tauto

def exNested : Xml :=
  .el "osm" []
    [.el "group" [] [.el "node" [("id", "1"), ("lat", "1"), ("lon", "2")] []]]

/-- **C2 counterexample** — on a document whose `node` element sits one level
deeper than the root's direct children, the whole-document strategy returns
no nodes while the streaming strategy (whose `start` events fire at every
depth) parses the node: the two strategies are not equivalent in general. -/
theorem c2_counterexample :
    (Result.from_xml_full exNested).map (fun g => g.nodes.map Prod.fst)
        = .ok []
    ∧ (Result.from_xml_iter exNested).map (fun g => g.nodes.map Prod.fst)
        = .ok [1] := by
  constructor <;> decide

def exFlat : Xml :=
  .el "osm" []
    [.el "node" [("id", "1"), ("lat", "1"), ("lon", "2")] [],
     .el "node" [("id", "2"), ("lat", "3"), ("lon", "4")] []]

theorem c2_witness :
    flatOsm exFlat = true
    ∧ (sameOutcome (Result.from_xml_full exFlat) (Result.from_xml_iter exFlat)
        ∧ ∀ y, y ∈ exFlat.startEvents ↔ y ∈ exFlat.endEvents) :=
  ⟨by decide, c2_parse_strategy_equivalence exFlat (by decide)⟩
